import Mathlib

/-!
Shallow embedding of the go-slip SLIP codec.

The fixed codec (constants `Start` .. `EscEsc`, `Encode`, `Decode`,
`IsReservedChar`, `ReservedCharCount`) is translated from slip.go.
The configurable `Encoding` (with `StdEncoding`, `BluefruitEncoding`,
`EncodedLen`, `Encoding.Encode`, `Encoding.SplitPackets`) is translated
from the second source file of the package.

Modelling conventions: byte slices are `List Nat`; Go `rune`-typed
configuration fields are `Int`, with `StartDisabled = -1`; Go slice
writes, which panic when out of bounds, are the fallible `listSet`
(`none` models the panic); Go `error` results are inductive error types
whose constructors correspond to the distinct error values and messages
of the source.
-/

namespace Slip

def Start : Nat := 0xAB
def StartEsc : Nat := 0xAC
def End : Nat := 0xBC
def EndEsc : Nat := 0xBD
def Esc : Nat := 0xCD
def EscEsc : Nat := 0xCE

/-- A write `l[i] = v` into a Go slice: `none` models the out-of-bounds panic. -/
def listSet (l : List Nat) (i v : Nat) : Option (List Nat) :=
  if i < l.length then some (l.set i v) else none

/-- Function `IsReservedChar` from slip.go. -/
def IsReservedChar (b : Nat) : Bool :=
  b == Start || b == End || b == Esc

/-- Function `ReservedCharCount` from slip.go (the counting loop, rendered recursively). -/
def ReservedCharCount : List Nat → Nat
  | [] => 0
  | b :: rest => (if IsReservedChar b then 1 else 0) + ReservedCharCount rest

/-- The body of the `for` loop of `Encode` in slip.go: walks the remaining
input, writing into `dst` at position `j`, with the same case order as the
Go `switch`. -/
def encodeFixedLoop : List Nat → Nat → List Nat → Option (List Nat)
  | [], _, dst => some dst
  | b :: rest, j, dst =>
    if b = Start then
      (listSet dst j Esc).bind fun d =>
        (listSet d (j + 1) StartEsc).bind fun d2 =>
          encodeFixedLoop rest (j + 2) d2
    else if b = End then
      (listSet dst j Esc).bind fun d =>
        (listSet d (j + 1) EndEsc).bind fun d2 =>
          encodeFixedLoop rest (j + 2) d2
    else if b = Esc then
      (listSet dst j Esc).bind fun d =>
        (listSet d (j + 1) EscEsc).bind fun d2 =>
          encodeFixedLoop rest (j + 2) d2
    else
      (listSet dst j b).bind fun d =>
        encodeFixedLoop rest (j + 1) d

/-- Function `Encode` from slip.go: allocate `len(data)+2+ReservedCharCount data`
zero bytes, write `Start` at index 0, run the loop from j = 1, then write
`End` at the last index. -/
def Encode (data : List Nat) : Option (List Nat) :=
  let enc0 := List.replicate (data.length + 2 + ReservedCharCount data) 0
  (listSet enc0 0 Start).bind fun enc1 =>
    (encodeFixedLoop data 1 enc1).bind fun enc2 =>
      listSet enc2 (enc2.length - 1) End

/-- How `Encode` rewrites one input byte (the arms of its `switch`). -/
def escFixed (b : Nat) : List Nat :=
  if b = Start then [Esc, StartEsc]
  else if b = End then [Esc, EndEsc]
  else if b = Esc then [Esc, EscEsc]
  else [b]

/-- The escaped interior produced by `Encode`. -/
def encodeBytes : List Nat → List Nat
  | [] => []
  | b :: rest => escFixed b ++ encodeBytes rest

/-- The full frame produced by `Encode`: functional characterization proven
equal to the write-based `Encode` below. -/
def encodeSpecFixed (data : List Nat) : List Nat :=
  [Start] ++ encodeBytes data ++ [End]

/-- The distinct error values returned by `Decode` in slip.go (one
constructor per distinct `fmt.Errorf` message, carrying the data the
message formats). -/
inductive DecodeError
  | frameTooShort (n : Nat)
  | missingStart (b : Nat)
  | missingEnd (b : Nat)
  | truncatedEscape
  | invalidEscapedChar (b : Nat)
deriving DecidableEq, Repr

/-- The scanning loop of `Decode` in slip.go over the interior (start and
end bytes already stripped): same `switch` order on the byte after `Esc`. -/
def decodeLoop : List Nat → Except DecodeError (List Nat)
  | [] => .ok []
  | b :: rest =>
    if b = Esc then
      match rest with
      | [] => .error .truncatedEscape
      | c :: rest2 =>
        if c = StartEsc then (decodeLoop rest2).map (Start :: ·)
        else if c = EndEsc then (decodeLoop rest2).map (End :: ·)
        else if c = EscEsc then (decodeLoop rest2).map (Esc :: ·)
        else .error (.invalidEscapedChar c)
    else (decodeLoop rest).map (b :: ·)

/-- Function `Decode` from slip.go. Note that the source formats `enc[0]` into the
missing-end message as well; `missingEnd` carries that byte accordingly. -/
def Decode (enc : List Nat) : Except DecodeError (List Nat) :=
  if enc.length < 2 then .error (.frameTooShort enc.length)
  else if enc.headD 0 ≠ Start then .error (.missingStart (enc.headD 0))
  else if enc.getLastD 0 ≠ End then .error (.missingEnd (enc.headD 0))
  else decodeLoop ((enc.drop 1).dropLast)

example : Encode [] = some [0xAB, 0xBC] := by decide
example : Encode [0xCD] = some [0xAB, 0xCD, 0xCE, 0xBC] := by decide
example : Decode [0xAB, 0xCD, 0xCE, 0xBC] = .ok [0xCD] := by rfl
example : Decode [0xAB, 0xCD, 0xBC] = .error .truncatedEscape := by rfl
example : Decode [0xAB, 0xCD, 0x01, 0xBC] = .error (.invalidEscapedChar 1) := by rfl
example : Decode [0x00, 0xBC] = .error (.missingStart 0) := by rfl

theorem set_app (l1 l2 : List Nat) (k v : Nat) :
    (l1 ++ l2).set (l1.length + k) v = l1 ++ l2.set k v := by
  induction l1 with
  | nil => simp
  | cons a t ih => simp [List.set, Nat.succ_add, ih]

theorem listSet_app (l1 l2 : List Nat) (k v : Nat) (h : k < l2.length) :
    listSet (l1 ++ l2) (l1.length + k) v = some (l1 ++ l2.set k v) := by
  unfold listSet
  rw [if_pos (by simp [List.length_append]; omega)]
  rw [set_app]

theorem listSet_app0 (l1 : List Nat) (b : Nat) (t : List Nat) (v : Nat) :
    listSet (l1 ++ b :: t) l1.length v = some (l1 ++ v :: t) := by
  have h := listSet_app l1 (b :: t) 0 v (by simp)
  rw [Nat.add_zero] at h
  exact h

theorem bind_write1 {α : Type} (pre : List Nat) (m0 : Nat) (t : List Nat) (v0 : Nat)
    (k : List Nat → Option α) :
    (listSet (pre ++ m0 :: t) pre.length v0).bind k = k ((pre ++ [v0]) ++ t) := by
  rw [listSet_app0]
  simp only [Option.some_bind]
  congr 1
  simp

theorem bind_write2 {α : Type} (pre : List Nat) (m0 m1 : Nat) (t : List Nat) (v0 v1 : Nat)
    (k : List Nat → Option α) :
    (listSet (pre ++ m0 :: m1 :: t) pre.length v0).bind
        (fun d => (listSet d (pre.length + 1) v1).bind k)
      = k ((pre ++ [v0, v1]) ++ t) := by
  rw [listSet_app0]
  simp only [Option.some_bind]
  rw [show pre ++ v0 :: m1 :: t = (pre ++ [v0]) ++ m1 :: t by simp,
    show pre.length + 1 = (pre ++ [v0]).length by simp, listSet_app0]
  simp only [Option.some_bind]
  congr 1
  simp

theorem len_cons1 (mid : List Nat) (n : Nat) (h : mid.length = n + 1) :
    ∃ m0 mid2, mid = m0 :: mid2 := by
  cases mid with
  | nil => simp only [List.length_nil] at h; omega
  | cons m0 mid2 => exact ⟨m0, mid2, rfl⟩

theorem len_cons2 (mid : List Nat) (n : Nat) (h : mid.length = n + 2) :
    ∃ m0 m1 mid2, mid = m0 :: m1 :: mid2 := by
  cases mid with
  | nil => simp only [List.length_nil] at h; omega
  | cons m0 t =>
    cases t with
    | nil => simp only [List.length_cons, List.length_nil] at h; omega
    | cons m1 mid2 => exact ⟨m0, m1, mid2, rfl⟩

theorem encodeBytes_length (data : List Nat) :
    (encodeBytes data).length = data.length + ReservedCharCount data := by
  induction data with
  | nil => rfl
  | cons b rest ih =>
    unfold encodeBytes ReservedCharCount escFixed IsReservedChar
    by_cases h1 : b = Start
    · simp [h1, ih, Start, End, Esc]; omega
    · by_cases h2 : b = End
      · simp [h1, h2, ih, Start, End, Esc]; omega
      · by_cases h3 : b = Esc
        · simp [h1, h2, h3, ih, Start, End, Esc]; omega
        · simp [h1, h2, h3, ih]; omega

theorem encodeBytes_cons (b : Nat) (rest : List Nat) :
    encodeBytes (b :: rest) = escFixed b ++ encodeBytes rest := rfl

theorem encodeFixedLoop_app (data : List Nat) :
    ∀ pre mid suf : List Nat, mid.length = (encodeBytes data).length →
      encodeFixedLoop data pre.length (pre ++ (mid ++ suf))
        = some (pre ++ (encodeBytes data ++ suf)) := by
  induction data with
  | nil =>
    intro pre mid suf hm
    have hnil : mid = [] := List.eq_nil_of_length_eq_zero (by
      simp only [encodeBytes, List.length_nil] at hm; omega)
    simp [encodeFixedLoop, hnil, encodeBytes]
  | cons b rest ih =>
    intro pre mid suf hm
    rw [encodeBytes_cons] at hm
    unfold encodeFixedLoop
    by_cases h1 : b = Start
    · have hesc : escFixed b = [Esc, StartEsc] := by
        unfold escFixed; rw [if_pos h1]
      rw [hesc] at hm
      simp only [List.length_append, List.length_cons, List.length_nil] at hm
      obtain ⟨m0, m1, mid2, rfl⟩ := len_cons2 mid (encodeBytes rest).length (by omega)
      rw [if_pos h1]
      rw [show pre ++ (m0 :: m1 :: mid2 ++ suf) = pre ++ m0 :: m1 :: (mid2 ++ suf) from rfl]
      rw [bind_write2]
      rw [show pre.length + 2 = (pre ++ [Esc, StartEsc]).length by simp]
      rw [ih (pre ++ [Esc, StartEsc]) mid2 suf
        (by simp only [List.length_cons] at hm; omega)]
      rw [encodeBytes_cons, hesc]
      simp
    · by_cases h2 : b = End
      · have hesc : escFixed b = [Esc, EndEsc] := by
          unfold escFixed; rw [if_neg h1, if_pos h2]
        rw [hesc] at hm
        simp only [List.length_append, List.length_cons, List.length_nil] at hm
        obtain ⟨m0, m1, mid2, rfl⟩ := len_cons2 mid (encodeBytes rest).length (by omega)
        rw [if_neg h1, if_pos h2]
        rw [show pre ++ (m0 :: m1 :: mid2 ++ suf) = pre ++ m0 :: m1 :: (mid2 ++ suf) from rfl]
        rw [bind_write2]
        rw [show pre.length + 2 = (pre ++ [Esc, EndEsc]).length by simp]
        rw [ih (pre ++ [Esc, EndEsc]) mid2 suf
          (by simp only [List.length_cons] at hm; omega)]
        rw [encodeBytes_cons, hesc]
        simp
      · by_cases h3 : b = Esc
        · have hesc : escFixed b = [Esc, EscEsc] := by
            unfold escFixed; rw [if_neg h1, if_neg h2, if_pos h3]
          rw [hesc] at hm
          simp only [List.length_append, List.length_cons, List.length_nil] at hm
          obtain ⟨m0, m1, mid2, rfl⟩ := len_cons2 mid (encodeBytes rest).length (by omega)
          rw [if_neg h1, if_neg h2, if_pos h3]
          rw [show pre ++ (m0 :: m1 :: mid2 ++ suf) = pre ++ m0 :: m1 :: (mid2 ++ suf) from rfl]
          rw [bind_write2]
          rw [show pre.length + 2 = (pre ++ [Esc, EscEsc]).length by simp]
          rw [ih (pre ++ [Esc, EscEsc]) mid2 suf
            (by simp only [List.length_cons] at hm; omega)]
          rw [encodeBytes_cons, hesc]
          simp
        · have hesc : escFixed b = [b] := by
            unfold escFixed; rw [if_neg h1, if_neg h2, if_neg h3]
          rw [hesc] at hm
          simp only [List.length_append, List.length_cons, List.length_nil] at hm
          obtain ⟨m0, mid2, rfl⟩ := len_cons1 mid (encodeBytes rest).length (by omega)
          rw [if_neg h1, if_neg h2, if_neg h3]
          rw [show pre ++ (m0 :: mid2 ++ suf) = pre ++ m0 :: (mid2 ++ suf) from rfl]
          rw [bind_write1]
          rw [show pre.length + 1 = (pre ++ [b]).length by simp]
          rw [ih (pre ++ [b]) mid2 suf
            (by simp only [List.length_cons] at hm; omega)]
          rw [encodeBytes_cons, hesc]
          simp

/-- The write-based `Encode` always succeeds and produces exactly the frame
`[Start] ++ escaped interior ++ [End]`. -/
theorem encode_fixed_eq (data : List Nat) :
    Encode data = some (encodeSpecFixed data) := by
  unfold Encode
  have hlen : data.length + 2 + ReservedCharCount data = (encodeBytes data).length + 2 := by
    rw [encodeBytes_length]; omega
  rw [hlen]
  have hrep : List.replicate ((encodeBytes data).length + 2) (0 : Nat)
      = 0 :: (List.replicate (encodeBytes data).length 0 ++ [0]) := by
    rw [show (encodeBytes data).length + 2 = ((encodeBytes data).length + 1) + 1 from rfl]
    rw [List.replicate_succ, List.replicate_succ']
  rw [hrep]
  have h0 : listSet (0 :: (List.replicate (encodeBytes data).length 0 ++ [0])) 0 Start
      = some (Start :: (List.replicate (encodeBytes data).length 0 ++ [0])) := by
    simp [listSet, List.set]
  simp only [h0, Option.some_bind]
  have h1 : encodeFixedLoop data 1 (Start :: (List.replicate (encodeBytes data).length 0 ++ [0]))
      = some ([Start] ++ (encodeBytes data ++ [0])) := by
    have hfl := encodeFixedLoop_app data [Start] (List.replicate (encodeBytes data).length 0) [0]
      (by simp)
    simpa using hfl
  rw [h1]
  simp only [Option.some_bind]
  have h2 : ([Start] ++ (encodeBytes data ++ [0])).length - 1
      = ([Start] ++ encodeBytes data).length + 0 := by
    simp
  rw [h2]
  rw [show [Start] ++ (encodeBytes data ++ [0]) = ([Start] ++ encodeBytes data) ++ [0] by simp]
  rw [listSet_app]
  · simp [encodeSpecFixed, List.set]
  · simp

theorem decodeLoop_encodeBytes (p : List Nat) :
    decodeLoop (encodeBytes p) = .ok p := by
  induction p with
  | nil => rfl
  | cons b rest ih =>
    rw [encodeBytes_cons]
    by_cases h1 : b = Start
    · have hesc : escFixed b = [Esc, StartEsc] := by unfold escFixed; rw [if_pos h1]
      rw [hesc]
      simp [decodeLoop, Except.map, ih, h1, Start, StartEsc, End, EndEsc, Esc, EscEsc]
    · by_cases h2 : b = End
      · have hesc : escFixed b = [Esc, EndEsc] := by unfold escFixed; rw [if_neg h1, if_pos h2]
        rw [hesc]
        simp [decodeLoop, Except.map, ih, h2, Start, StartEsc, End, EndEsc, Esc, EscEsc]
      · by_cases h3 : b = Esc
        · have hesc : escFixed b = [Esc, EscEsc] := by
            unfold escFixed; rw [if_neg h1, if_neg h2, if_pos h3]
          rw [hesc]
          simp [decodeLoop, Except.map, ih, h3, Start, StartEsc, End, EndEsc, Esc, EscEsc]
        · have hesc : escFixed b = [b] := by
            unfold escFixed; rw [if_neg h1, if_neg h2, if_neg h3]
          rw [hesc, List.singleton_append]
          rw [decodeLoop.eq_def]
          simp only [h3, ite_false, if_false]
          rw [ih]
          rfl

theorem getLastD_app (l : List Nat) (a d : Nat) : (l ++ [a]).getLastD d = a := by
  induction l generalizing d with
  | nil => rfl
  | cons x t ih => rw [List.cons_append, List.getLastD_cons, ih]

theorem decode_framed (enc : List Nat) (h2 : 2 ≤ enc.length)
    (hh : enc.headD 0 = Start) (hl : enc.getLastD 0 = End) :
    Decode enc = decodeLoop ((enc.drop 1).dropLast) := by
  unfold Decode
  rw [if_neg (by omega)]
  rw [if_neg (show ¬(enc.headD 0 ≠ Start) by simp only [ne_eq, not_not]; exact hh)]
  rw [if_neg (show ¬(enc.getLastD 0 ≠ End) by simp only [ne_eq, not_not]; exact hl)]

theorem decode_roundtrip_fixed (p : List Nat) :
    Decode (encodeSpecFixed p) = .ok p := by
  unfold encodeSpecFixed
  have hlen : 2 ≤ ([Start] ++ encodeBytes p ++ [End]).length := by simp
  have hhead : ([Start] ++ encodeBytes p ++ [End]).headD 0 = Start := by simp
  have hlast : ([Start] ++ encodeBytes p ++ [End]).getLastD 0 = End :=
    getLastD_app _ _ _
  have hint : (([Start] ++ encodeBytes p ++ [End]).drop 1).dropLast = encodeBytes p := by
    rw [show ([Start] ++ encodeBytes p ++ [End]).drop 1 = encodeBytes p ++ [End] from rfl]
    simp
  rw [decode_framed _ hlen hhead hlast, hint, decodeLoop_encodeBytes]

/-- Predicate `isValidEscapedByte`: the bytes the inner `switch` of `Decode` accepts
right after an `Esc` (the three non-default arms). -/
def isValidEscapedByte (b : Nat) : Bool :=
  b == StartEsc || b == EndEsc || b == EscEsc

/-- Predicate form of the `TruncatedEscape` exit of the interior scan of
`Decode`: the scan, consuming valid escape pairs, reaches an `Esc` that is
the last byte. -/
def interiorTruncated : List Nat → Bool
  | [] => false
  | b :: rest =>
    if b = Esc then
      match rest with
      | [] => true
      | c :: rest2 => isValidEscapedByte c && interiorTruncated rest2
    else interiorTruncated rest

/-- Projection of the `InvalidEscapedChar` exit of the interior scan of
`Decode`: the first byte found right after an `Esc` that is not a valid
escaped substitute, if any. -/
def interiorInvalid : List Nat → Option Nat
  | [] => none
  | b :: rest =>
    if b = Esc then
      match rest with
      | [] => none
      | c :: rest2 => if isValidEscapedByte c then interiorInvalid rest2 else some c
    else interiorInvalid rest

theorem exceptMap_error {ε α β : Type} (x : Except ε α) (f : α → β) (e : ε) :
    x.map f = .error e ↔ x = .error e := by
  cases x <;> simp [Except.map]

theorem exceptMap_ok {ε α β : Type} (x : Except ε α) (f : α → β) :
    (∃ d, x.map f = .ok d) ↔ ∃ d, x = .ok d := by
  cases x <;> simp [Except.map]

theorem decodeLoop_classify (I : List Nat) :
    (decodeLoop I = .error .truncatedEscape ↔ interiorTruncated I = true) ∧
    (∀ c, decodeLoop I = .error (.invalidEscapedChar c) ↔ interiorInvalid I = some c) ∧
    ((∃ d, decodeLoop I = .ok d) ↔ (interiorTruncated I = false ∧ interiorInvalid I = none)) ∧
    (∀ n, decodeLoop I ≠ .error (.frameTooShort n)) ∧
    (∀ b, decodeLoop I ≠ .error (.missingStart b)) ∧
    (∀ b, decodeLoop I ≠ .error (.missingEnd b)) := by
  induction I using decodeLoop.induct with
  | case1 =>
    simp [decodeLoop, interiorTruncated, interiorInvalid]
  | case2 =>
    simp [decodeLoop, interiorTruncated, interiorInvalid]
  | case3 rest2 ih =>
    obtain ⟨i1, i2, i3, i4, i5, i6⟩ := ih
    refine ⟨?_, ?_, ?_, ?_, ?_, ?_⟩
    · simp [decodeLoop, interiorTruncated, isValidEscapedByte, exceptMap_error, i1,
        Start, StartEsc, End, EndEsc, Esc, EscEsc]
    · simp [decodeLoop, interiorInvalid, isValidEscapedByte, exceptMap_error, i2,
        Start, StartEsc, End, EndEsc, Esc, EscEsc]
    · simp [decodeLoop, interiorTruncated, interiorInvalid, isValidEscapedByte,
        exceptMap_ok, i3, Start, StartEsc, End, EndEsc, Esc, EscEsc]
    · simp [decodeLoop, exceptMap_error, i4, Start, StartEsc, End, EndEsc, Esc, EscEsc]
    · simp [decodeLoop, exceptMap_error, i5, Start, StartEsc, End, EndEsc, Esc, EscEsc]
    · simp [decodeLoop, exceptMap_error, i6, Start, StartEsc, End, EndEsc, Esc, EscEsc]
  | case4 rest2 hne ih =>
    obtain ⟨i1, i2, i3, i4, i5, i6⟩ := ih
    refine ⟨?_, ?_, ?_, ?_, ?_, ?_⟩
    · simp [decodeLoop, interiorTruncated, isValidEscapedByte, exceptMap_error, i1,
        Start, StartEsc, End, EndEsc, Esc, EscEsc]
    · simp [decodeLoop, interiorInvalid, isValidEscapedByte, exceptMap_error, i2,
        Start, StartEsc, End, EndEsc, Esc, EscEsc]
    · simp [decodeLoop, interiorTruncated, interiorInvalid, isValidEscapedByte,
        exceptMap_ok, i3, Start, StartEsc, End, EndEsc, Esc, EscEsc]
    · simp [decodeLoop, exceptMap_error, i4, Start, StartEsc, End, EndEsc, Esc, EscEsc]
    · simp [decodeLoop, exceptMap_error, i5, Start, StartEsc, End, EndEsc, Esc, EscEsc]
    · simp [decodeLoop, exceptMap_error, i6, Start, StartEsc, End, EndEsc, Esc, EscEsc]
  | case5 rest2 hne1 hne2 ih =>
    obtain ⟨i1, i2, i3, i4, i5, i6⟩ := ih
    refine ⟨?_, ?_, ?_, ?_, ?_, ?_⟩
    · simp [decodeLoop, interiorTruncated, isValidEscapedByte, exceptMap_error, i1,
        Start, StartEsc, End, EndEsc, Esc, EscEsc]
    · simp [decodeLoop, interiorInvalid, isValidEscapedByte, exceptMap_error, i2,
        Start, StartEsc, End, EndEsc, Esc, EscEsc]
    · simp [decodeLoop, interiorTruncated, interiorInvalid, isValidEscapedByte,
        exceptMap_ok, i3, Start, StartEsc, End, EndEsc, Esc, EscEsc]
    · simp [decodeLoop, exceptMap_error, i4, Start, StartEsc, End, EndEsc, Esc, EscEsc]
    · simp [decodeLoop, exceptMap_error, i5, Start, StartEsc, End, EndEsc, Esc, EscEsc]
    · simp [decodeLoop, exceptMap_error, i6, Start, StartEsc, End, EndEsc, Esc, EscEsc]
  | case6 c rest2 hc1 hc2 hc3 =>
    simp only [StartEsc, EndEsc, EscEsc] at hc1 hc2 hc3
    refine ⟨?_, ?_, ?_, ?_, ?_, ?_⟩ <;>
      simp [decodeLoop, interiorTruncated, interiorInvalid, isValidEscapedByte,
        hc1, hc2, hc3, Start, StartEsc, End, EndEsc, Esc, EscEsc]
  | case7 c rest hc ih =>
    obtain ⟨i1, i2, i3, i4, i5, i6⟩ := ih
    have hdl : decodeLoop (c :: rest) = (decodeLoop rest).map (c :: ·) := by
      rw [decodeLoop.eq_def]
      simp only [hc, ite_false, if_false]
    have hti : interiorTruncated (c :: rest) = interiorTruncated rest := by
      rw [interiorTruncated.eq_def]
      simp only [hc, ite_false, if_false]
    have hii : interiorInvalid (c :: rest) = interiorInvalid rest := by
      rw [interiorInvalid.eq_def]
      simp only [hc, ite_false, if_false]
    refine ⟨?_, ?_, ?_, ?_, ?_, ?_⟩
    · simp [hdl, hti, exceptMap_error, i1]
    · simp [hdl, hii, exceptMap_error, i2]
    · simp [hdl, hti, hii, exceptMap_ok, i3]
    · simp [hdl, exceptMap_error, i4]
    · simp [hdl, exceptMap_error, i5]
    · simp [hdl, exceptMap_error, i6]

/-- Constant `StartDisabled` from the source: the sentinel disabling the Start
character. -/
def StartDisabled : Int := -1

/-- The `Encoding` struct of the source; its `rune` fields are `Int`. -/
structure Encoding where
  Start : Int
  EscStart : Int
  End : Int
  EscEnd : Int
  Esc : Int
  EscEsc : Int
deriving DecidableEq, Repr

/-- Go conversion `byte(r)` of a rune `r`: the low 8 bits. -/
def byteOf (r : Int) : Nat := (r % 256).toNat

/-- Value `StdEncoding` from the source. -/
def StdEncoding : Encoding :=
  ⟨StartDisabled, StartDisabled, 0xC0, 0xDC, 0xDB, 0xDD⟩

/-- Value `BluefruitEncoding` from the source. -/
def BluefruitEncoding : Encoding :=
  ⟨0xAB, 0xAC, 0xBC, 0xBD, 0xCD, 0xCE⟩

/-- Function `minLength` from the source. -/
def Encoding.minLength (e : Encoding) : Nat :=
  if e.Start = StartDisabled then 1 else 2

/-- Function `isValidControlChar` from the source. -/
def Encoding.isValidControlChar (e : Encoding) (b : Nat) : Bool :=
  if e.Start = StartDisabled then (b : Int) == e.End || (b : Int) == e.Esc
  else (b : Int) == e.Start || (b : Int) == e.End || (b : Int) == e.Esc

/-- Function `isValidControlEscChar` from the source. -/
def Encoding.isValidControlEscChar (e : Encoding) (b : Nat) : Bool :=
  if e.EscStart = StartDisabled then (b : Int) == e.EscEnd || (b : Int) == e.EscEsc
  else (b : Int) == e.EscStart || (b : Int) == e.EscEnd || (b : Int) == e.EscEsc

/-- Function `controlCharCount` from the source (counting loop, rendered
recursively). -/
def Encoding.controlCharCount (e : Encoding) : List Nat → Nat
  | [] => 0
  | b :: rest => (if e.isValidControlChar b then 1 else 0) + e.controlCharCount rest

/-- Function `EncodedLen` from the source. -/
def Encoding.EncodedLen (e : Encoding) (src : List Nat) : Nat :=
  src.length + e.minLength + e.controlCharCount src

/-- The `for` loop of `Encoding.Encode`, with its guard
`i < len(src) && j < len(dst)-1` (the second conjunct rendered
`j + 1 < dst.length`) and the same `switch` order; when the guard fails
the loop exits early, truncating the remaining input. The `switch` has no
default arm, so when no case matches, nothing is written at `j+1`. -/
def Encoding.encodeStep (e : Encoding) : List Nat → Nat → List Nat → Option (Nat × List Nat)
  | [], j, dst => some (j, dst)
  | b :: rest, j, dst =>
    if j + 1 < dst.length then
      if e.isValidControlChar b then
        (listSet dst j (byteOf e.Esc)).bind fun d =>
          (if (b : Int) = e.Start then listSet d (j + 1) (byteOf e.EscStart)
           else if (b : Int) = e.End then listSet d (j + 1) (byteOf e.EscEnd)
           else if (b : Int) = e.Esc then listSet d (j + 1) (byteOf e.EscEsc)
           else some d).bind fun d2 =>
            e.encodeStep rest (j + 2) d2
      else
        (listSet dst j b).bind fun d =>
          e.encodeStep rest (j + 1) d
    else some (j, dst)

/-- Function `Encoding.Encode` from the source: allocate `EncodedLen src` zero
bytes, write the start byte when enabled, run the loop, then write the
end byte at the final value of `j`. -/
def Encoding.Encode (e : Encoding) (src : List Nat) : Option (List Nat) :=
  let dst0 := List.replicate (e.EncodedLen src) 0
  (if e.Start ≠ StartDisabled then
      (listSet dst0 0 (byteOf e.Start)).map fun d => ((1 : Nat), d)
    else some ((0 : Nat), dst0)).bind fun p =>
    (e.encodeStep src p.1 p.2).bind fun q =>
      listSet q.2 q.1 (byteOf e.End)

/-- How `Encoding.Encode` rewrites one input byte (its `switch` arms, in
source order). -/
def Encoding.escByte (e : Encoding) (b : Nat) : List Nat :=
  if (b : Int) = e.Start then [byteOf e.Esc, byteOf e.EscStart]
  else if (b : Int) = e.End then [byteOf e.Esc, byteOf e.EscEnd]
  else if (b : Int) = e.Esc then [byteOf e.Esc, byteOf e.EscEsc]
  else [b]

/-- The escaped interior produced by `Encoding.Encode`. -/
def Encoding.encodeBody (e : Encoding) : List Nat → List Nat
  | [] => []
  | b :: rest => e.escByte b ++ e.encodeBody rest

/-- The leading start byte emitted by `Encoding.Encode`, if enabled. -/
def Encoding.startPart (e : Encoding) : List Nat :=
  if e.Start = StartDisabled then [] else [byteOf e.Start]

/-- Functional characterization of `Encoding.Encode`, proven equal to the
write-based definition below. -/
def Encoding.encodeSpec (e : Encoding) (src : List Nat) : List Nat :=
  e.startPart ++ e.encodeBody src ++ [byteOf e.End]

/-- The two error values `SplitPackets` can report: `io.EOF` and
`InvalidControlCharError{Index, ControlChar}`. -/
inductive SplitError
  | eof
  | invalidControlChar (index : Nat) (char : Nat)
deriving DecidableEq, Repr

/-- The `(advance, token, err)` triple returned by `SplitPackets`;
`token = none` models the nil token of the need-more-data return. -/
structure SplitResult where
  advance : Nat
  token : Option (List Nat)
  err : Option SplitError
deriving DecidableEq, Repr

/-- The first scanning loop of `SplitPackets`: the index of the first end
byte, if any, paired with `tokenByteCount`, the number of non-escape bytes
seen before it (all non-escape bytes when there is no end byte). -/
def Encoding.firstPass (e : Encoding) : List Nat → Option Nat × Nat
  | [] => (none, 0)
  | b :: rest =>
    if (b : Int) = e.End then (some 0, 0)
    else
      let r := e.firstPass rest
      (r.1.map (· + 1), if (b : Int) = e.Esc then r.2 else r.2 + 1)

/-- The decoding loop of `SplitPackets` over the scanned span, carrying
the absolute index `i` into the input buffer, the `inEscSeq` flag, the
output index `j` and the token buffer. A successful or erroneous exit
returns the (possibly partially filled) token together with the optional
error, exactly as the Go function returns its named results; the
unreachable `default: return` of the inner `switch` is the final
`some (token, none)` arm. -/
def Encoding.splitLoop (e : Encoding) :
    List Nat → Nat → Bool → Nat → List Nat → Option (List Nat × Option SplitError)
  | [], _, _, _, token => some (token, none)
  | b :: rest, i, inEscSeq, j, token =>
    if inEscSeq then
      if e.isValidControlEscChar b then
        if (b : Int) = e.EscStart then
          (listSet token j (byteOf e.Start)).bind fun t =>
            e.splitLoop rest (i + 1) false (j + 1) t
        else if (b : Int) = e.EscEnd then
          (listSet token j (byteOf e.End)).bind fun t =>
            e.splitLoop rest (i + 1) false (j + 1) t
        else if (b : Int) = e.EscEsc then
          (listSet token j (byteOf e.Esc)).bind fun t =>
            e.splitLoop rest (i + 1) false (j + 1) t
        else some (token, none)
      else some (token, some (.invalidControlChar i b))
    else
      if (b : Int) = e.Esc then e.splitLoop rest (i + 1) true j token
      else
        (listSet token j b).bind fun t =>
          e.splitLoop rest (i + 1) false (j + 1) t

/-- Function `SplitPackets` from the source. When no end byte is found: at EOF,
consume everything and return the data with `io.EOF`; otherwise request
more data (0, nil, nil). When an end byte is found at `endIndex`: skip a
leading start byte (if the configuration has one and the buffer starts
with it), allocate the token from the adjusted `tokenByteCount` (a Go
`make` with a negative count would panic: `none`), and decode the span;
`advance = endIndex + 1` and the token are returned even on error, as in
the source. -/
def Encoding.SplitPackets (e : Encoding) (data : List Nat) (atEOF : Bool) :
    Option SplitResult :=
  match e.firstPass data with
  | (none, _) =>
    if atEOF then some ⟨data.length, some data, some .eof⟩
    else some ⟨0, none, none⟩
  | (some endIndex, tokenByteCount) =>
    let startIndex : Nat :=
      if e.Start ≠ StartDisabled ∧ (data.headD 0 : Int) = e.Start then 1 else 0
    let cnt : Int := (tokenByteCount : Int) - (startIndex : Int)
    if cnt < 0 then none
    else
      match e.splitLoop ((data.take endIndex).drop startIndex) startIndex false 0
          (List.replicate cnt.toNat 0) with
      | none => none
      | some (tok, err) => some ⟨endIndex + 1, some tok, err⟩

/-- A valid configuration in the sense of the specification: the active
control bytes and their escaped substitutes are byte values, pairwise
distinct; a disabled start has `StartDisabled` in both start fields. -/
def Encoding.Valid (e : Encoding) : Prop :=
  (0 ≤ e.End ∧ e.End < 256) ∧ (0 ≤ e.EscEnd ∧ e.EscEnd < 256) ∧
  (0 ≤ e.Esc ∧ e.Esc < 256) ∧ (0 ≤ e.EscEsc ∧ e.EscEsc < 256) ∧
  e.End ≠ e.Esc ∧ e.End ≠ e.EscEnd ∧ e.End ≠ e.EscEsc ∧
  e.Esc ≠ e.EscEnd ∧ e.Esc ≠ e.EscEsc ∧ e.EscEnd ≠ e.EscEsc ∧
  ((e.Start = StartDisabled ∧ e.EscStart = StartDisabled) ∨
    ((0 ≤ e.Start ∧ e.Start < 256) ∧ (0 ≤ e.EscStart ∧ e.EscStart < 256) ∧
      e.Start ≠ e.End ∧ e.Start ≠ e.Esc ∧ e.Start ≠ e.EscStart ∧
      e.Start ≠ e.EscEnd ∧ e.Start ≠ e.EscEsc ∧
      e.EscStart ≠ e.End ∧ e.EscStart ≠ e.Esc ∧
      e.EscStart ≠ e.EscEnd ∧ e.EscStart ≠ e.EscEsc))

instance Encoding.decValid (e : Encoding) : Decidable e.Valid := by
  unfold Encoding.Valid
  exact inferInstance

example : StdEncoding.Encode [1, 2, 3, 0xC0, 0xDC, 0xDB, 0xDD]
    = some [1, 2, 3, 0xDB, 0xDC, 0xDC, 0xDB, 0xDD, 0xDD, 0xC0] := by decide
example : StdEncoding.SplitPackets
      [1, 2, 3, 0xC0, 4, 0xDB, 0xDC, 0xC0, 0xDB, 0xDD, 5, 0xC0] false
    = some ⟨4, some [1, 2, 3], none⟩ := by decide
example : BluefruitEncoding.SplitPackets [0xAB, 4, 0xCD, 0xAB, 0xCD, 0xBD, 0xBC] false
    = some ⟨7, some [4, 0, 0], some (.invalidControlChar 3 0xAB)⟩ := by decide
example : StdEncoding.Valid := by decide
example : BluefruitEncoding.Valid := by decide

set_option maxRecDepth 10000 in
example : Encode [0x06, 0x01, 0xEF, 0xCD, 0x06, 0x0A, 0x01, 0x26, 0x5C, 0x00, 0x00, 0xBC, 0x01, 0x00, 0x00, 0xD6, 0xBE, 0x89, 0x8E, 0x40, 0x21, 0x00, 0xFD, 0x03, 0x27, 0xD3, 0xDA, 0xD8, 0x02, 0x01, 0x06, 0x11, 0x06, 0xBA, 0x56, 0x89, 0xA6, 0xFA, 0xBF, 0xA2, 0xBD, 0x01, 0x46, 0x7D, 0x6E, 0x00, 0xFB, 0xAB, 0xAD, 0x05, 0x16, 0x0A, 0x18, 0x05, 0x06, 0x1E, 0x77, 0xF2]
    = some [0xAB, 0x06, 0x01, 0xEF, 0xCD, 0xCE, 0x06, 0x0A, 0x01, 0x26, 0x5C, 0x00, 0x00, 0xCD, 0xBD, 0x01, 0x00, 0x00, 0xD6, 0xBE, 0x89, 0x8E, 0x40, 0x21, 0x00, 0xFD, 0x03, 0x27, 0xD3, 0xDA, 0xD8, 0x02, 0x01, 0x06, 0x11, 0x06, 0xBA, 0x56, 0x89, 0xA6, 0xFA, 0xBF, 0xA2, 0xBD, 0x01, 0x46, 0x7D, 0x6E, 0x00, 0xFB, 0xCD, 0xAC, 0xAD, 0x05, 0x16, 0x0A, 0x18, 0x05, 0x06, 0x1E, 0x77, 0xF2, 0xBC] := by decide

set_option maxRecDepth 10000 in
example : Decode [0xAB, 0x06, 0x01, 0xEF, 0xCD, 0xCE, 0x06, 0x0A, 0x01, 0x26, 0x5C, 0x00, 0x00, 0xCD, 0xBD, 0x01, 0x00, 0x00, 0xD6, 0xBE, 0x89, 0x8E, 0x40, 0x21, 0x00, 0xFD, 0x03, 0x27, 0xD3, 0xDA, 0xD8, 0x02, 0x01, 0x06, 0x11, 0x06, 0xBA, 0x56, 0x89, 0xA6, 0xFA, 0xBF, 0xA2, 0xBD, 0x01, 0x46, 0x7D, 0x6E, 0x00, 0xFB, 0xCD, 0xAC, 0xAD, 0x05, 0x16, 0x0A, 0x18, 0x05, 0x06, 0x1E, 0x77, 0xF2, 0xBC]
    = .ok [0x06, 0x01, 0xEF, 0xCD, 0x06, 0x0A, 0x01, 0x26, 0x5C, 0x00, 0x00, 0xBC, 0x01, 0x00, 0x00, 0xD6, 0xBE, 0x89, 0x8E, 0x40, 0x21, 0x00, 0xFD, 0x03, 0x27, 0xD3, 0xDA, 0xD8, 0x02, 0x01, 0x06, 0x11, 0x06, 0xBA, 0x56, 0x89, 0xA6, 0xFA, 0xBF, 0xA2, 0xBD, 0x01, 0x46, 0x7D, 0x6E, 0x00, 0xFB, 0xAB, 0xAD, 0x05, 0x16, 0x0A, 0x18, 0x05, 0x06, 0x1E, 0x77, 0xF2] := by rfl

example : BluefruitEncoding.SplitPackets [0xAB, 0x01, 0x02, 0x03, 0xBC, 0xAB, 0x04, 0xCD, 0xAC, 0xCD, 0xBD, 0xBC, 0xAB, 0xCD, 0xCE, 0x05, 0xBC] false
    = some ⟨5, some [0x01, 0x02, 0x03], none⟩ := by decide
example : BluefruitEncoding.SplitPackets (List.drop 5 [0xAB, 0x01, 0x02, 0x03, 0xBC, 0xAB, 0x04, 0xCD, 0xAC, 0xCD, 0xBD, 0xBC, 0xAB, 0xCD, 0xCE, 0x05, 0xBC]) false
    = some ⟨7, some [0x04, 0xAB, 0xBC], none⟩ := by decide
example : BluefruitEncoding.SplitPackets (List.drop 12 [0xAB, 0x01, 0x02, 0x03, 0xBC, 0xAB, 0x04, 0xCD, 0xAC, 0xCD, 0xBD, 0xBC, 0xAB, 0xCD, 0xCE, 0x05, 0xBC]) false
    = some ⟨5, some [0xCD, 0x05], none⟩ := by decide

theorem intCast_ne_neg_one (b : Nat) : (b : Int) ≠ -1 := by omega

theorem isValidControlChar_of_cases (e : Encoding) (b : Nat) :
    e.isValidControlChar b = true ↔
      ((b : Int) = e.Start ∨ (b : Int) = e.End ∨ (b : Int) = e.Esc) := by
  unfold Encoding.isValidControlChar
  by_cases hS : e.Start = StartDisabled
  · rw [if_pos hS]
    constructor
    · intro h
      simp only [Bool.or_eq_true, beq_iff_eq] at h
      tauto
    · intro h
      rcases h with h | h | h
      · exact absurd (by rw [h, hS]; rfl) (intCast_ne_neg_one b)
      · simp [h]
      · simp [h]
  · rw [if_neg hS]
    constructor
    · intro h
      simp only [Bool.or_eq_true, beq_iff_eq] at h
      tauto
    · intro h
      rcases h with h | h | h <;> simp [h]

theorem isValidControlChar_false (e : Encoding) (b : Nat)
    (h1 : ¬(b : Int) = e.Start) (h2 : ¬(b : Int) = e.End) (h3 : ¬(b : Int) = e.Esc) :
    e.isValidControlChar b = false := by
  rw [← Bool.not_eq_true]
  intro hc
  rcases (isValidControlChar_of_cases e b).mp hc with h | h | h
  · exact h1 h
  · exact h2 h
  · exact h3 h

theorem escByte_length (e : Encoding) (b : Nat) :
    (e.escByte b).length = if e.isValidControlChar b then 2 else 1 := by
  unfold Encoding.escByte
  by_cases hb1 : (b : Int) = e.Start
  · rw [if_pos hb1, if_pos ((isValidControlChar_of_cases e b).mpr (Or.inl hb1))]
    rfl
  · by_cases hb2 : (b : Int) = e.End
    · rw [if_neg hb1, if_pos hb2,
        if_pos ((isValidControlChar_of_cases e b).mpr (Or.inr (Or.inl hb2)))]
      rfl
    · by_cases hb3 : (b : Int) = e.Esc
      · rw [if_neg hb1, if_neg hb2, if_pos hb3,
          if_pos ((isValidControlChar_of_cases e b).mpr (Or.inr (Or.inr hb3)))]
        rfl
      · rw [if_neg hb1, if_neg hb2, if_neg hb3,
          if_neg (by simp [isValidControlChar_false e b hb1 hb2 hb3])]
        rfl

theorem encodeBody_cons (e : Encoding) (b : Nat) (rest : List Nat) :
    e.encodeBody (b :: rest) = e.escByte b ++ e.encodeBody rest := rfl

theorem encodeBody_length (e : Encoding) (src : List Nat) :
    (e.encodeBody src).length = src.length + e.controlCharCount src := by
  induction src with
  | nil => rfl
  | cons b rest ih =>
    rw [encodeBody_cons]
    unfold Encoding.controlCharCount
    rw [List.length_append, escByte_length, ih]
    by_cases hc : e.isValidControlChar b <;> simp [hc] <;> omega

theorem encodeStep_app (e : Encoding) (src : List Nat) :
    ∀ pre mid suf : List Nat, mid.length = (e.encodeBody src).length → suf ≠ [] →
      e.encodeStep src pre.length (pre ++ (mid ++ suf))
        = some (pre.length + (e.encodeBody src).length, pre ++ (e.encodeBody src ++ suf)) := by
  induction src with
  | nil =>
    intro pre mid suf hm _
    have hnil : mid = [] := List.eq_nil_of_length_eq_zero (by
      simp only [Encoding.encodeBody, List.length_nil] at hm; omega)
    simp [Encoding.encodeStep, hnil, Encoding.encodeBody]
  | cons b rest ih =>
    intro pre mid suf hm hsuf
    obtain ⟨s0, suft, rfl⟩ : ∃ s0 suft, suf = s0 :: suft := by
      cases suf with
      | nil => exact absurd rfl hsuf
      | cons s0 suft => exact ⟨s0, suft, rfl⟩
    rw [encodeBody_cons] at hm ⊢
    unfold Encoding.encodeStep
    by_cases hb1 : (b : Int) = e.Start
    · have hS : ¬ e.Start = StartDisabled := by
        intro hd
        exact intCast_ne_neg_one b (by rw [hb1, hd]; rfl)
      have hesc : e.escByte b = [byteOf e.Esc, byteOf e.EscStart] := by
        unfold Encoding.escByte; rw [if_pos hb1]
      have hcc : e.isValidControlChar b = true :=
        (isValidControlChar_of_cases e b).mpr (Or.inl hb1)
      rw [hesc] at hm ⊢
      simp only [List.length_append, List.length_cons, List.length_nil] at hm
      obtain ⟨m0, m1, mid2, rfl⟩ := len_cons2 mid (e.encodeBody rest).length (by omega)
      rw [if_pos (show pre.length + 1 < (pre ++ (m0 :: m1 :: mid2 ++ s0 :: suft)).length by
        simp)]
      rw [if_pos hcc]
      simp only [if_pos hb1]
      rw [show pre ++ (m0 :: m1 :: mid2 ++ s0 :: suft)
            = pre ++ m0 :: m1 :: (mid2 ++ s0 :: suft) from rfl]
      rw [bind_write2]
      rw [show pre.length + 2 = (pre ++ [byteOf e.Esc, byteOf e.EscStart]).length by simp]
      rw [ih (pre ++ [byteOf e.Esc, byteOf e.EscStart]) mid2 (s0 :: suft)
        (by simp only [List.length_cons] at hm; omega) (by simp)]
      simp
      omega
    · by_cases hb2 : (b : Int) = e.End
      · have hesc : e.escByte b = [byteOf e.Esc, byteOf e.EscEnd] := by
          unfold Encoding.escByte; rw [if_neg hb1, if_pos hb2]
        have hcc : e.isValidControlChar b = true :=
          (isValidControlChar_of_cases e b).mpr (Or.inr (Or.inl hb2))
        rw [hesc] at hm ⊢
        simp only [List.length_append, List.length_cons, List.length_nil] at hm
        obtain ⟨m0, m1, mid2, rfl⟩ := len_cons2 mid (e.encodeBody rest).length (by omega)
        rw [if_pos (show pre.length + 1 < (pre ++ (m0 :: m1 :: mid2 ++ s0 :: suft)).length by
          simp)]
        rw [if_pos hcc]
        simp only [if_neg hb1, if_pos hb2]
        rw [show pre ++ (m0 :: m1 :: mid2 ++ s0 :: suft)
              = pre ++ m0 :: m1 :: (mid2 ++ s0 :: suft) from rfl]
        rw [bind_write2]
        rw [show pre.length + 2 = (pre ++ [byteOf e.Esc, byteOf e.EscEnd]).length by simp]
        rw [ih (pre ++ [byteOf e.Esc, byteOf e.EscEnd]) mid2 (s0 :: suft)
          (by simp only [List.length_cons] at hm; omega) (by simp)]
        simp
        omega
      · by_cases hb3 : (b : Int) = e.Esc
        · have hesc : e.escByte b = [byteOf e.Esc, byteOf e.EscEsc] := by
            unfold Encoding.escByte; rw [if_neg hb1, if_neg hb2, if_pos hb3]
          have hcc : e.isValidControlChar b = true :=
            (isValidControlChar_of_cases e b).mpr (Or.inr (Or.inr hb3))
          rw [hesc] at hm ⊢
          simp only [List.length_append, List.length_cons, List.length_nil] at hm
          obtain ⟨m0, m1, mid2, rfl⟩ := len_cons2 mid (e.encodeBody rest).length (by omega)
          rw [if_pos (show pre.length + 1 < (pre ++ (m0 :: m1 :: mid2 ++ s0 :: suft)).length by
            simp)]
          rw [if_pos hcc]
          simp only [if_neg hb1, if_neg hb2, if_pos hb3]
          rw [show pre ++ (m0 :: m1 :: mid2 ++ s0 :: suft)
                = pre ++ m0 :: m1 :: (mid2 ++ s0 :: suft) from rfl]
          rw [bind_write2]
          rw [show pre.length + 2 = (pre ++ [byteOf e.Esc, byteOf e.EscEsc]).length by simp]
          rw [ih (pre ++ [byteOf e.Esc, byteOf e.EscEsc]) mid2 (s0 :: suft)
            (by simp only [List.length_cons] at hm; omega) (by simp)]
          simp
          omega
        · have hesc : e.escByte b = [b] := by
            unfold Encoding.escByte; rw [if_neg hb1, if_neg hb2, if_neg hb3]
          have hcc : e.isValidControlChar b = false :=
            isValidControlChar_false e b hb1 hb2 hb3
          rw [hesc] at hm ⊢
          simp only [List.length_append, List.length_cons, List.length_nil] at hm
          obtain ⟨m0, mid2, rfl⟩ := len_cons1 mid (e.encodeBody rest).length (by omega)
          rw [if_pos (show pre.length + 1 < (pre ++ (m0 :: mid2 ++ s0 :: suft)).length by
            simp)]
          rw [if_neg (by simp [hcc])]
          rw [show pre ++ (m0 :: mid2 ++ s0 :: suft) = pre ++ m0 :: (mid2 ++ s0 :: suft) from rfl]
          rw [bind_write1]
          rw [show pre.length + 1 = (pre ++ [b]).length by simp]
          rw [ih (pre ++ [b]) mid2 (s0 :: suft)
            (by simp only [List.length_cons] at hm; omega) (by simp)]
          simp
          omega

theorem minLength_eq (e : Encoding) : e.minLength = e.startPart.length + 1 := by
  unfold Encoding.minLength Encoding.startPart
  by_cases hS : e.Start = StartDisabled <;> simp [hS]

theorem encodeSpec_length (e : Encoding) (src : List Nat) :
    (e.encodeSpec src).length = e.EncodedLen src := by
  unfold Encoding.encodeSpec Encoding.EncodedLen
  rw [minLength_eq]
  simp only [List.length_append, List.length_cons, List.length_nil, encodeBody_length]
  omega

/-- Theorem: `Encoding.Encode` always succeeds (no write is out of bounds, the loop
guard never truncates the input) and produces exactly the frame
`startPart ++ escaped interior ++ [end]`, for every configuration. -/
theorem encode_eq_spec (e : Encoding) (src : List Nat) :
    e.Encode src = some (e.encodeSpec src) := by
  unfold Encoding.Encode
  by_cases hS : e.Start = StartDisabled
  · have hEL : e.EncodedLen src = (e.encodeBody src).length + 1 := by
      unfold Encoding.EncodedLen Encoding.minLength
      rw [if_pos hS, encodeBody_length]
      omega
    rw [hEL, List.replicate_succ']
    simp only [if_neg (show ¬(e.Start ≠ StartDisabled) by simp [hS]), Option.some_bind]
    have hstep := encodeStep_app e src [] (List.replicate (e.encodeBody src).length 0) [0]
      (by simp) (by simp)
    simp only [List.length_nil, List.nil_append, Nat.zero_add] at hstep
    rw [hstep]
    simp only [Option.some_bind]
    rw [show (e.encodeBody src).length = (e.encodeBody src).length + 0 by omega]
    rw [show (e.encodeBody src).length + 0 = (e.encodeBody src).length from rfl]
    rw [listSet_app0 (e.encodeBody src) 0 [] (byteOf e.End)]
    unfold Encoding.encodeSpec Encoding.startPart
    rw [if_pos hS]
    simp
  · have hEL : e.EncodedLen src = ((e.encodeBody src).length + 1) + 1 := by
      unfold Encoding.EncodedLen Encoding.minLength
      rw [if_neg hS, encodeBody_length]
      omega
    rw [hEL, List.replicate_succ, List.replicate_succ']
    simp only [if_pos (show e.Start ≠ StartDisabled from hS)]
    have h0 : listSet (0 :: (List.replicate (e.encodeBody src).length 0 ++ [0])) 0
        (byteOf e.Start)
        = some (byteOf e.Start :: (List.replicate (e.encodeBody src).length 0 ++ [0])) := by
      simp [listSet, List.set]
    simp only [h0, Option.map_some, Option.map_some', Option.some_bind]
    have hstep := encodeStep_app e src [byteOf e.Start]
      (List.replicate (e.encodeBody src).length 0) [0] (by simp) (by simp)
    simp only [List.length_cons, List.length_nil, Nat.zero_add, List.nil_append,
      List.singleton_append, List.cons_append] at hstep ⊢
    rw [hstep]
    simp only [Option.some_bind]
    rw [show byteOf e.Start :: (e.encodeBody src ++ [0])
          = (byteOf e.Start :: e.encodeBody src) ++ [0] from rfl]
    rw [show 1 + (e.encodeBody src).length = (byteOf e.Start :: e.encodeBody src).length by
      simp only [List.length_cons]; omega]
    rw [listSet_app0 (byteOf e.Start :: e.encodeBody src) 0 [] (byteOf e.End)]
    unfold Encoding.encodeSpec Encoding.startPart
    rw [if_neg hS]
    simp

theorem byteOf_cast (r : Int) (h0 : 0 ≤ r) (h1 : r < 256) : ((byteOf r : Nat) : Int) = r := by
  unfold byteOf
  rw [Int.emod_eq_of_lt h0 h1, Int.toNat_of_nonneg h0]

/-- The per-prefix count kept by the first loop of `SplitPackets`: the
number of non-escape bytes. -/
def Encoding.nonEscCount (e : Encoding) : List Nat → Nat
  | [] => 0
  | b :: rest => (if (b : Int) = e.Esc then 0 else 1) + e.nonEscCount rest

theorem nonEscCount_app (e : Encoding) (l1 l2 : List Nat) :
    e.nonEscCount (l1 ++ l2) = e.nonEscCount l1 + e.nonEscCount l2 := by
  induction l1 with
  | nil => simp [Encoding.nonEscCount]
  | cons b rest ih =>
    rw [List.cons_append]
    rw [show e.nonEscCount (b :: (rest ++ l2))
          = (if (b : Int) = e.Esc then 0 else 1) + e.nonEscCount (rest ++ l2) from rfl]
    rw [show e.nonEscCount (b :: rest)
          = (if (b : Int) = e.Esc then 0 else 1) + e.nonEscCount rest from rfl]
    rw [ih]
    omega

theorem firstPass_noEnd (e : Encoding) (l : List Nat)
    (h : ∀ b ∈ l, (b : Int) ≠ e.End) :
    e.firstPass l = (none, e.nonEscCount l) := by
  induction l with
  | nil => rfl
  | cons b rest ih =>
    unfold Encoding.firstPass
    rw [if_neg (h b (by simp))]
    rw [ih (fun x hx => h x (by simp [hx]))]
    rw [show e.nonEscCount (b :: rest)
          = (if (b : Int) = e.Esc then 0 else 1) + e.nonEscCount rest from rfl]
    by_cases hb : (b : Int) = e.Esc <;> simp [hb, Nat.add_comm]

theorem firstPass_found (e : Encoding) (l1 : List Nat) (b0 : Nat) (l2 : List Nat)
    (h : ∀ b ∈ l1, (b : Int) ≠ e.End) (hb0 : (b0 : Int) = e.End) :
    e.firstPass (l1 ++ b0 :: l2) = (some l1.length, e.nonEscCount l1) := by
  induction l1 with
  | nil =>
    simp only [List.nil_append]
    unfold Encoding.firstPass
    rw [if_pos hb0]
    rfl
  | cons b rest ih =>
    simp only [List.cons_append]
    unfold Encoding.firstPass
    rw [if_neg (h b (by simp))]
    rw [ih (fun x hx => h x (by simp [hx]))]
    rw [show e.nonEscCount (b :: rest)
          = (if (b : Int) = e.Esc then 0 else 1) + e.nonEscCount rest from rfl]
    by_cases hb : (b : Int) = e.Esc <;> simp [hb, Nat.add_comm]

theorem splitLoop_cons (e : Encoding) (b : Nat) (rest : List Nat) (i : Nat) (x : Bool)
    (j : Nat) (token : List Nat) :
    e.splitLoop (b :: rest) i x j token =
      if x then
        if e.isValidControlEscChar b then
          if (b : Int) = e.EscStart then
            (listSet token j (byteOf e.Start)).bind fun t =>
              e.splitLoop rest (i + 1) false (j + 1) t
          else if (b : Int) = e.EscEnd then
            (listSet token j (byteOf e.End)).bind fun t =>
              e.splitLoop rest (i + 1) false (j + 1) t
          else if (b : Int) = e.EscEsc then
            (listSet token j (byteOf e.Esc)).bind fun t =>
              e.splitLoop rest (i + 1) false (j + 1) t
          else some (token, none)
        else some (token, some (.invalidControlChar i b))
      else
        if (b : Int) = e.Esc then e.splitLoop rest (i + 1) true j token
        else
          (listSet token j b).bind fun t =>
            e.splitLoop rest (i + 1) false (j + 1) t := rfl

theorem splitLoop_congrIdx (e : Encoding) (s : List Nat) (x : Bool) (i i' j j' : Nat)
    (t t' : List Nat) (hi : i = i') (hj : j = j') (ht : t = t') :
    e.splitLoop s i x j t = e.splitLoop s i' x j' t' := by
  rw [hi, hj, ht]

theorem splitLoop_app (e : Encoding) (hv : e.Valid) (p : List Nat) :
    ∀ (suffix : List Nat) (i : Nat) (pre mid suf : List Nat), mid.length = p.length →
      e.splitLoop (e.encodeBody p ++ suffix) i false pre.length (pre ++ (mid ++ suf))
        = e.splitLoop suffix (i + (e.encodeBody p).length) false
            (pre.length + p.length) (pre ++ (p ++ suf)) := by
  obtain ⟨⟨hE0, hE1⟩, ⟨hEE0, hEE1⟩, ⟨hX0, hX1⟩, ⟨hXX0, hXX1⟩,
    hd1, hd2, hd3, hd4, hd5, hd6, hstart⟩ := hv
  have hEscCast : ((byteOf e.Esc : Nat) : Int) = e.Esc := byteOf_cast e.Esc hX0 hX1
  have hEndCast : ((byteOf e.End : Nat) : Int) = e.End := byteOf_cast e.End hE0 hE1
  have hEECast : ((byteOf e.EscEnd : Nat) : Int) = e.EscEnd := byteOf_cast e.EscEnd hEE0 hEE1
  have hXXCast : ((byteOf e.EscEsc : Nat) : Int) = e.EscEsc := byteOf_cast e.EscEsc hXX0 hXX1
  induction p with
  | nil =>
    intro suffix i pre mid suf hm
    have hnil : mid = [] := List.eq_nil_of_length_eq_zero (by
      simp only [List.length_nil] at hm; omega)
    subst hnil
    simp [Encoding.encodeBody]
  | cons b rest ih =>
    intro suffix i pre mid suf hm
    rw [encodeBody_cons]
    by_cases hb1 : (b : Int) = e.Start
    · rcases hstart with ⟨hSd, _⟩ | ⟨⟨hS0, hS1⟩, ⟨hSS0, hSS1⟩, hsd1, hsd2, hsd3, hsd4,
        hsd5, hsd6, hsd7, hsd8, hsd9⟩
      · exact absurd (by rw [hb1, hSd]; rfl) (intCast_ne_neg_one b)
      have hSCast : ((byteOf e.Start : Nat) : Int) = e.Start := byteOf_cast e.Start hS0 hS1
      have hSSCast : ((byteOf e.EscStart : Nat) : Int) = e.EscStart :=
        byteOf_cast e.EscStart hSS0 hSS1
      have hesc : e.escByte b = [byteOf e.Esc, byteOf e.EscStart] := by
        unfold Encoding.escByte; rw [if_pos hb1]
      have hwv : byteOf e.Start = b := by omega
      obtain ⟨m0, mid2, rfl⟩ := len_cons1 mid rest.length (by simp at hm; omega)
      rw [hesc]
      rw [show ([byteOf e.Esc, byteOf e.EscStart] ++ e.encodeBody rest) ++ suffix
            = byteOf e.Esc :: byteOf e.EscStart :: (e.encodeBody rest ++ suffix) by simp]
      rw [splitLoop_cons]
      rw [if_neg (show ¬(false = true) by simp)]
      rw [if_pos hEscCast]
      rw [splitLoop_cons]
      rw [if_pos (show true = true from rfl)]
      rw [if_pos (show e.isValidControlEscChar (byteOf e.EscStart) = true by
        unfold Encoding.isValidControlEscChar
        rw [if_neg (show ¬ e.EscStart = StartDisabled by unfold StartDisabled; omega)]
        simp [hSSCast])]
      rw [if_pos hSSCast, hwv]
      rw [show pre ++ (m0 :: mid2 ++ suf) = pre ++ m0 :: (mid2 ++ suf) from rfl]
      rw [bind_write1]
      rw [show pre.length + 1 = (pre ++ [b]).length by simp]
      rw [ih suffix (i + 1 + 1) (pre ++ [b]) mid2 suf (by simp at hm ⊢; omega)]
      apply splitLoop_congrIdx
      · simp only [List.length_append, List.length_cons, List.length_nil]; omega
      · simp only [List.length_append, List.length_cons, List.length_nil]; omega
      · simp
    · by_cases hb2 : (b : Int) = e.End
      · have hesc : e.escByte b = [byteOf e.Esc, byteOf e.EscEnd] := by
          unfold Encoding.escByte; rw [if_neg hb1, if_pos hb2]
        have hwv : byteOf e.End = b := by omega
        obtain ⟨m0, mid2, rfl⟩ := len_cons1 mid rest.length (by simp at hm; omega)
        rw [hesc]
        rw [show ([byteOf e.Esc, byteOf e.EscEnd] ++ e.encodeBody rest) ++ suffix
              = byteOf e.Esc :: byteOf e.EscEnd :: (e.encodeBody rest ++ suffix) by simp]
        rw [splitLoop_cons]
        rw [if_neg (show ¬(false = true) by simp)]
        rw [if_pos hEscCast]
        rw [splitLoop_cons]
        rw [if_pos (show true = true from rfl)]
        rw [if_pos (show e.isValidControlEscChar (byteOf e.EscEnd) = true by
          unfold Encoding.isValidControlEscChar
          by_cases hg : e.EscStart = StartDisabled
          · rw [if_pos hg]; simp [hEECast]
          · rw [if_neg hg]; simp [hEECast])]
        rw [if_neg (show ¬((byteOf e.EscEnd : Nat) : Int) = e.EscStart by
          rcases hstart with ⟨_, hSSd⟩ | ⟨_, ⟨hSS0, hSS1⟩, _, _, _, _, _, _, _, hsd8, _⟩
          · rw [hSSd]; unfold StartDisabled; omega
          · omega)]
        rw [if_pos hEECast, hwv]
        rw [show pre ++ (m0 :: mid2 ++ suf) = pre ++ m0 :: (mid2 ++ suf) from rfl]
        rw [bind_write1]
        rw [show pre.length + 1 = (pre ++ [b]).length by simp]
        rw [ih suffix (i + 1 + 1) (pre ++ [b]) mid2 suf (by simp at hm ⊢; omega)]
        apply splitLoop_congrIdx
        · simp only [List.length_append, List.length_cons, List.length_nil]; omega
        · simp only [List.length_append, List.length_cons, List.length_nil]; omega
        · simp
      · by_cases hb3 : (b : Int) = e.Esc
        · have hesc : e.escByte b = [byteOf e.Esc, byteOf e.EscEsc] := by
            unfold Encoding.escByte; rw [if_neg hb1, if_neg hb2, if_pos hb3]
          have hwv : byteOf e.Esc = b := by omega
          obtain ⟨m0, mid2, rfl⟩ := len_cons1 mid rest.length (by simp at hm; omega)
          rw [hesc]
          rw [show ([byteOf e.Esc, byteOf e.EscEsc] ++ e.encodeBody rest) ++ suffix
                = byteOf e.Esc :: byteOf e.EscEsc :: (e.encodeBody rest ++ suffix) by simp]
          rw [splitLoop_cons]
          rw [if_neg (show ¬(false = true) by simp)]
          rw [if_pos hEscCast]
          rw [splitLoop_cons]
          rw [if_pos (show true = true from rfl)]
          rw [if_pos (show e.isValidControlEscChar (byteOf e.EscEsc) = true by
            unfold Encoding.isValidControlEscChar
            by_cases hg : e.EscStart = StartDisabled
            · rw [if_pos hg]; simp [hXXCast]
            · rw [if_neg hg]; simp [hXXCast])]
          rw [if_neg (show ¬((byteOf e.EscEsc : Nat) : Int) = e.EscStart by
            rcases hstart with ⟨_, hSSd⟩ | ⟨_, ⟨hSS0, hSS1⟩, _, _, _, _, _, _, _, _, hsd9⟩
            · rw [hSSd]; unfold StartDisabled; omega
            · omega)]
          rw [if_neg (show ¬((byteOf e.EscEsc : Nat) : Int) = e.EscEnd by omega)]
          rw [if_pos hXXCast, hwv]
          rw [show pre ++ (m0 :: mid2 ++ suf) = pre ++ m0 :: (mid2 ++ suf) from rfl]
          rw [bind_write1]
          rw [show pre.length + 1 = (pre ++ [b]).length by simp]
          rw [ih suffix (i + 1 + 1) (pre ++ [b]) mid2 suf (by simp at hm ⊢; omega)]
          apply splitLoop_congrIdx
          · simp only [List.length_append, List.length_cons, List.length_nil]; omega
          · simp only [List.length_append, List.length_cons, List.length_nil]; omega
          · simp
        · have hesc : e.escByte b = [b] := by
            unfold Encoding.escByte; rw [if_neg hb1, if_neg hb2, if_neg hb3]
          obtain ⟨m0, mid2, rfl⟩ := len_cons1 mid rest.length (by simp at hm; omega)
          rw [hesc]
          rw [show ([b] ++ e.encodeBody rest) ++ suffix
                = b :: (e.encodeBody rest ++ suffix) by simp]
          rw [splitLoop_cons]
          rw [if_neg (show ¬(false = true) by simp)]
          rw [if_neg hb3]
          rw [show pre ++ (m0 :: mid2 ++ suf) = pre ++ m0 :: (mid2 ++ suf) from rfl]
          rw [bind_write1]
          rw [show pre.length + 1 = (pre ++ [b]).length by simp]
          rw [ih suffix (i + 1) (pre ++ [b]) mid2 suf (by simp at hm ⊢; omega)]
          apply splitLoop_congrIdx
          · simp only [List.length_append, List.length_cons, List.length_nil]; omega
          · simp only [List.length_append, List.length_cons, List.length_nil]; omega
          · simp

theorem escByte_bytes (e : Encoding) (hv : e.Valid) (b : Nat) :
    (∀ x ∈ e.escByte b, (x : Int) ≠ e.End) ∧ e.nonEscCount (e.escByte b) = 1 := by
  obtain ⟨⟨hE0, hE1⟩, ⟨hEE0, hEE1⟩, ⟨hX0, hX1⟩, ⟨hXX0, hXX1⟩,
    hd1, hd2, hd3, hd4, hd5, hd6, hstart⟩ := hv
  have hEscCast : ((byteOf e.Esc : Nat) : Int) = e.Esc := byteOf_cast e.Esc hX0 hX1
  have hEECast : ((byteOf e.EscEnd : Nat) : Int) = e.EscEnd := byteOf_cast e.EscEnd hEE0 hEE1
  have hXXCast : ((byteOf e.EscEsc : Nat) : Int) = e.EscEsc := byteOf_cast e.EscEsc hXX0 hXX1
  unfold Encoding.escByte
  by_cases hb1 : (b : Int) = e.Start
  · rcases hstart with ⟨hSd, _⟩ | ⟨⟨hS0, hS1⟩, ⟨hSS0, hSS1⟩, hsd1, hsd2, hsd3, hsd4,
      hsd5, hsd6, hsd7, hsd8, hsd9⟩
    · exact absurd (by rw [hb1, hSd]; rfl) (intCast_ne_neg_one b)
    have hSSCast : ((byteOf e.EscStart : Nat) : Int) = e.EscStart :=
      byteOf_cast e.EscStart hSS0 hSS1
    rw [if_pos hb1]
    constructor
    · intro x hx
      simp only [List.mem_cons, List.not_mem_nil, or_false] at hx
      rcases hx with rfl | rfl <;> omega
    · rw [show e.nonEscCount [byteOf e.Esc, byteOf e.EscStart]
            = (if ((byteOf e.Esc : Nat) : Int) = e.Esc then 0 else 1)
              + ((if ((byteOf e.EscStart : Nat) : Int) = e.Esc then 0 else 1) + 0) from rfl]
      rw [if_pos hEscCast, if_neg (by omega)]
  · by_cases hb2 : (b : Int) = e.End
    · rw [if_neg hb1, if_pos hb2]
      constructor
      · intro x hx
        simp only [List.mem_cons, List.not_mem_nil, or_false] at hx
        rcases hx with rfl | rfl <;> omega
      · rw [show e.nonEscCount [byteOf e.Esc, byteOf e.EscEnd]
              = (if ((byteOf e.Esc : Nat) : Int) = e.Esc then 0 else 1)
                + ((if ((byteOf e.EscEnd : Nat) : Int) = e.Esc then 0 else 1) + 0) from rfl]
        rw [if_pos hEscCast, if_neg (by omega)]
    · by_cases hb3 : (b : Int) = e.Esc
      · rw [if_neg hb1, if_neg hb2, if_pos hb3]
        constructor
        · intro x hx
          simp only [List.mem_cons, List.not_mem_nil, or_false] at hx
          rcases hx with rfl | rfl <;> omega
        · rw [show e.nonEscCount [byteOf e.Esc, byteOf e.EscEsc]
                = (if ((byteOf e.Esc : Nat) : Int) = e.Esc then 0 else 1)
                  + ((if ((byteOf e.EscEsc : Nat) : Int) = e.Esc then 0 else 1) + 0) from rfl]
          rw [if_pos hEscCast, if_neg (by omega)]
      · rw [if_neg hb1, if_neg hb2, if_neg hb3]
        constructor
        · intro x hx
          simp only [List.mem_cons, List.not_mem_nil, or_false] at hx
          rcases hx with rfl
          omega
        · rw [show e.nonEscCount [b]
                = (if (b : Int) = e.Esc then 0 else 1) + 0 from rfl]
          rw [if_neg hb3]

theorem encodeBody_no_end (e : Encoding) (hv : e.Valid) (p : List Nat) :
    ∀ x ∈ e.encodeBody p, (x : Int) ≠ e.End := by
  induction p with
  | nil => simp [Encoding.encodeBody]
  | cons b rest ih =>
    rw [encodeBody_cons]
    intro x hx
    rcases List.mem_append.mp hx with hx | hx
    · exact (escByte_bytes e hv b).1 x hx
    · exact ih x hx

theorem encodeBody_nonEsc (e : Encoding) (hv : e.Valid) (p : List Nat) :
    e.nonEscCount (e.encodeBody p) = p.length := by
  induction p with
  | nil => rfl
  | cons b rest ih =>
    rw [encodeBody_cons, nonEscCount_app, (escByte_bytes e hv b).2, ih]
    simp [Nat.add_comm]

theorem startPart_no_end (e : Encoding) (hv : e.Valid) :
    ∀ x ∈ e.startPart, (x : Int) ≠ e.End := by
  unfold Encoding.startPart
  by_cases hS : e.Start = StartDisabled
  · rw [if_pos hS]; simp
  · rw [if_neg hS]
    obtain ⟨⟨hE0, hE1⟩, _, _, _, _, _, _, _, _, _, hstart⟩ := hv
    rcases hstart with ⟨hSd, _⟩ | ⟨⟨hS0, hS1⟩, _, hsd1, _⟩
    · exact absurd hSd hS
    · have hSCast : ((byteOf e.Start : Nat) : Int) = e.Start := byteOf_cast e.Start hS0 hS1
      intro x hx
      simp only [List.mem_cons, List.not_mem_nil, or_false] at hx
      rcases hx with rfl
      omega

theorem startPart_nonEsc (e : Encoding) (hv : e.Valid) :
    e.nonEscCount e.startPart = e.startPart.length := by
  unfold Encoding.startPart
  by_cases hS : e.Start = StartDisabled
  · rw [if_pos hS]; rfl
  · rw [if_neg hS]
    obtain ⟨_, _, ⟨hX0, hX1⟩, _, _, _, _, _, _, _, hstart⟩ := hv
    rcases hstart with ⟨hSd, _⟩ | ⟨⟨hS0, hS1⟩, _, _, hsd2, _⟩
    · exact absurd hSd hS
    · have hSCast : ((byteOf e.Start : Nat) : Int) = e.Start := byteOf_cast e.Start hS0 hS1
      rw [show e.nonEscCount [byteOf e.Start]
            = (if ((byteOf e.Start : Nat) : Int) = e.Esc then 0 else 1) + 0 from rfl]
      rw [if_neg (by omega)]
      rfl

/-- Behaviour of `SplitPackets` on a full encoded frame, optionally with a dangling
escape byte inserted right before the end byte: the packet is decoded back
to the payload, the whole frame is consumed, and no error is reported
(the dangling escape is silently dropped). -/
theorem splitPackets_encoded (e : Encoding) (hv : e.Valid) (p dang : List Nat)
    (hd : dang = [] ∨ dang = [byteOf e.Esc]) (atEOF : Bool) :
    e.SplitPackets (e.startPart ++ e.encodeBody p ++ dang ++ [byteOf e.End]) atEOF
      = some ⟨e.startPart.length + (e.encodeBody p).length + dang.length + 1,
          some p, none⟩ := by
  have hv2 := hv
  obtain ⟨⟨hE0, hE1⟩, ⟨hEE0, hEE1⟩, ⟨hX0, hX1⟩, ⟨hXX0, hXX1⟩,
    hd1, hd2, hd3, hd4, hd5, hd6, hstart⟩ := hv2
  have hEndCast : ((byteOf e.End : Nat) : Int) = e.End := byteOf_cast e.End hE0 hE1
  have hEscCast : ((byteOf e.Esc : Nat) : Int) = e.Esc := byteOf_cast e.Esc hX0 hX1
  have hno : ∀ x ∈ e.startPart ++ e.encodeBody p ++ dang, (x : Int) ≠ e.End := by
    intro x hx
    rcases List.mem_append.mp hx with hx2 | hx2
    · rcases List.mem_append.mp hx2 with hx3 | hx3
      · exact startPart_no_end e hv x hx3
      · exact encodeBody_no_end e hv p x hx3
    · rcases hd with rfl | rfl
      · simp at hx2
      · simp only [List.mem_cons, List.not_mem_nil, or_false] at hx2
        subst hx2
        omega
  have hfp : e.firstPass (e.startPart ++ e.encodeBody p ++ dang ++ [byteOf e.End])
      = (some (e.startPart ++ e.encodeBody p ++ dang).length,
          e.nonEscCount (e.startPart ++ e.encodeBody p ++ dang)) :=
    firstPass_found e (e.startPart ++ e.encodeBody p ++ dang) (byteOf e.End) [] hno hEndCast
  have hcnt : e.nonEscCount (e.startPart ++ e.encodeBody p ++ dang)
      = e.startPart.length + p.length := by
    rw [nonEscCount_app, nonEscCount_app, startPart_nonEsc e hv, encodeBody_nonEsc e hv]
    rcases hd with rfl | rfl
    · rfl
    · rw [show e.nonEscCount [byteOf e.Esc]
            = (if ((byteOf e.Esc : Nat) : Int) = e.Esc then 0 else 1) + 0 from rfl,
        if_pos hEscCast]
      omega
  unfold Encoding.SplitPackets
  rw [hfp, hcnt]
  simp only []
  have hsi : (if e.Start ≠ StartDisabled ∧
        (((e.startPart ++ e.encodeBody p ++ dang ++ [byteOf e.End]).headD 0 : Nat) : Int)
          = e.Start then 1 else 0) = e.startPart.length := by
    by_cases hS : e.Start = StartDisabled
    · rw [if_neg (by simp [hS])]
      unfold Encoding.startPart
      rw [if_pos hS]
      rfl
    · rcases hstart with ⟨hSd, _⟩ | ⟨⟨hS0, hS1⟩, _⟩
      · exact absurd hSd hS
      have hSCast : ((byteOf e.Start : Nat) : Int) = e.Start := byteOf_cast e.Start hS0 hS1
      have hhead : (e.startPart ++ e.encodeBody p ++ dang ++ [byteOf e.End]).headD 0
          = byteOf e.Start := by
        unfold Encoding.startPart
        rw [if_neg hS]
        simp
      rw [if_pos ⟨hS, by rw [hhead, hSCast]⟩]
      unfold Encoding.startPart
      rw [if_neg hS]
      rfl
  rw [hsi]
  rw [if_neg (show ¬((e.startPart.length + p.length : Nat) : Int)
        - (e.startPart.length : Int) < 0 by omega)]
  rw [show (((e.startPart.length + p.length : Nat) : Int)
        - (e.startPart.length : Int)).toNat = p.length by omega]
  rw [List.take_left]
  rw [show e.startPart ++ e.encodeBody p ++ dang
        = e.startPart ++ (e.encodeBody p ++ dang) by rw [List.append_assoc]]
  rw [List.drop_left]
  have hsl := splitLoop_app e hv p dang e.startPart.length []
    (List.replicate p.length 0) [] (by simp)
  simp only [List.length_nil, List.nil_append, List.append_nil, Nat.zero_add] at hsl
  rw [hsl]
  have hfinal : e.splitLoop dang (e.startPart.length + (e.encodeBody p).length) false
      p.length p = some (p, none) := by
    rcases hd with rfl | rfl
    · rfl
    · rw [splitLoop_cons]
      rw [if_neg (show ¬(false = true) by simp)]
      rw [if_pos hEscCast]
      rfl
  rw [hfinal]
  simp only []
  rw [show (e.startPart ++ (e.encodeBody p ++ dang)).length
        = e.startPart.length + (e.encodeBody p).length + dang.length by
      simp [List.length_append]; omega]

theorem splitLoop_err (e : Encoding) :
    ∀ (span : List Nat) (i0 : Nat) (fl : Bool) (j : Nat) (t t' : List Nat) (idx c : Nat),
      e.splitLoop span i0 fl j t = some (t', some (.invalidControlChar idx c)) →
      ∃ k, k < span.length ∧ span.get? k = some c ∧ idx = i0 + k ∧
        e.isValidControlEscChar c = false := by
  intro span
  induction span with
  | nil =>
    intro i0 fl j t t' idx c h
    simp [Encoding.splitLoop] at h
  | cons b rest ih =>
    intro i0 fl j t t' idx c h
    rw [splitLoop_cons] at h
    cases fl with
    | false =>
      rw [if_neg (show ¬(false = true) by simp)] at h
      by_cases hb : (b : Int) = e.Esc
      · rw [if_pos hb] at h
        obtain ⟨k, hk1, hk2, hk3, hk4⟩ := ih (i0 + 1) true j t t' idx c h
        refine ⟨k + 1, by simp only [List.length_cons]; omega, by simpa using hk2,
          by omega, hk4⟩
      · rw [if_neg hb] at h
        cases hls : listSet t j b with
        | none => rw [hls] at h; simp at h
        | some t2 =>
          rw [hls] at h
          simp only [Option.some_bind] at h
          obtain ⟨k, hk1, hk2, hk3, hk4⟩ := ih (i0 + 1) false (j + 1) t2 t' idx c h
          refine ⟨k + 1, by simp only [List.length_cons]; omega, by simpa using hk2,
            by omega, hk4⟩
    | true =>
      rw [if_pos rfl] at h
      by_cases hvc : e.isValidControlEscChar b
      · rw [if_pos hvc] at h
        by_cases h1 : (b : Int) = e.EscStart
        · rw [if_pos h1] at h
          cases hls : listSet t j (byteOf e.Start) with
          | none => rw [hls] at h; simp at h
          | some t2 =>
            rw [hls] at h
            simp only [Option.some_bind] at h
            obtain ⟨k, hk1, hk2, hk3, hk4⟩ := ih (i0 + 1) false (j + 1) t2 t' idx c h
            refine ⟨k + 1, by simp only [List.length_cons]; omega, by simpa using hk2,
              by omega, hk4⟩
        · rw [if_neg h1] at h
          by_cases h2 : (b : Int) = e.EscEnd
          · rw [if_pos h2] at h
            cases hls : listSet t j (byteOf e.End) with
            | none => rw [hls] at h; simp at h
            | some t2 =>
              rw [hls] at h
              simp only [Option.some_bind] at h
              obtain ⟨k, hk1, hk2, hk3, hk4⟩ := ih (i0 + 1) false (j + 1) t2 t' idx c h
              refine ⟨k + 1, by simp only [List.length_cons]; omega, by simpa using hk2,
                by omega, hk4⟩
          · rw [if_neg h2] at h
            by_cases h3 : (b : Int) = e.EscEsc
            · rw [if_pos h3] at h
              cases hls : listSet t j (byteOf e.Esc) with
              | none => rw [hls] at h; simp at h
              | some t2 =>
                rw [hls] at h
                simp only [Option.some_bind] at h
                obtain ⟨k, hk1, hk2, hk3, hk4⟩ := ih (i0 + 1) false (j + 1) t2 t' idx c h
                refine ⟨k + 1, by simp only [List.length_cons]; omega, by simpa using hk2,
                  by omega, hk4⟩
            · rw [if_neg h3] at h
              simp at h
      · rw [if_neg hvc] at h
        simp only [Option.some.injEq, Prod.mk.injEq, SplitError.invalidControlChar.injEq] at h
        obtain ⟨-, hi, hc⟩ := h
        refine ⟨0, by simp, ?_, by omega, ?_⟩
        · rw [← hc]; rfl
        · rw [← hc]
          rw [← Bool.not_eq_true]
          exact hvc

/-- When `SplitPackets` reports `InvalidControlCharError{idx, c}`, then
`c` is the byte at absolute position `idx` of the data buffer passed to
`SplitPackets`, and it is not a valid escaped substitute. -/
theorem splitPackets_err_abs (e : Encoding) (data : List Nat) (atEOF : Bool)
    (res : SplitResult) (idx c : Nat)
    (h1 : e.SplitPackets data atEOF = some res)
    (h2 : res.err = some (.invalidControlChar idx c)) :
    data.get? idx = some c ∧ e.isValidControlEscChar c = false := by
  unfold Encoding.SplitPackets at h1
  cases hfp : e.firstPass data with
  | mk o cntv =>
    rw [hfp] at h1
    cases o with
    | none =>
      simp only [] at h1
      cases atEOF with
      | true =>
        rw [if_pos rfl] at h1
        simp only [Option.some.injEq] at h1
        rw [← h1] at h2
        simp at h2
      | false =>
        rw [if_neg (by simp)] at h1
        simp only [Option.some.injEq] at h1
        rw [← h1] at h2
        simp at h2
    | some endIndex =>
      simp only [] at h1
      by_cases hcnt : (cntv : Int) - ((if e.Start ≠ StartDisabled ∧
          ((data.headD 0 : Nat) : Int) = e.Start then 1 else 0 : Nat) : Int) < 0
      · rw [if_pos hcnt] at h1
        simp at h1
      · rw [if_neg hcnt] at h1
        cases hsl : e.splitLoop
            ((data.take endIndex).drop (if e.Start ≠ StartDisabled ∧
              ((data.headD 0 : Nat) : Int) = e.Start then 1 else 0))
            (if e.Start ≠ StartDisabled ∧
              ((data.headD 0 : Nat) : Int) = e.Start then 1 else 0) false 0
            (List.replicate ((cntv : Int) - ((if e.Start ≠ StartDisabled ∧
              ((data.headD 0 : Nat) : Int) = e.Start then 1 else 0 : Nat) : Int)).toNat 0) with
        | none => rw [hsl] at h1; simp at h1
        | some pr =>
          obtain ⟨tok, errv⟩ := pr
          rw [hsl] at h1
          simp only [Option.some.injEq] at h1
          rw [← h1] at h2
          simp only [] at h2
          rw [h2] at hsl
          obtain ⟨k, hk1, hk2, hk3, hk4⟩ := splitLoop_err e _ _ false 0 _ tok idx c hsl
          rw [List.get?_drop] at hk2
          refine ⟨?_, hk4⟩
          have hbound : (if e.Start ≠ StartDisabled ∧
              ((data.headD 0 : Nat) : Int) = e.Start then 1 else 0) + k
              < (data.take endIndex).length := by
            rw [List.get?_eq_some] at hk2
            obtain ⟨hlt, -⟩ := hk2
            exact hlt
          rw [List.length_take] at hbound
          rw [List.get?_take (by omega : (if e.Start ≠ StartDisabled ∧
            ((data.headD 0 : Nat) : Int) = e.Start then 1 else 0) + k < endIndex)] at hk2
          rw [hk3]
          exact hk2

theorem decodeLoop_noEsc (I : List Nat) (h : ∀ b ∈ I, b ≠ Esc) :
    decodeLoop I = .ok I := by
  induction I with
  | nil => rfl
  | cons b rest ih =>
    rw [decodeLoop.eq_def]
    simp only [h b (by simp), ite_false, if_false]
    rw [ih (fun x hx => h x (by simp [hx]))]
    rfl

theorem escByte_bluefruit (b : Nat) : BluefruitEncoding.escByte b = escFixed b := by
  by_cases h1 : b = 0xAB
  · subst h1; decide
  · by_cases h2 : b = 0xBC
    · subst h2; decide
    · by_cases h3 : b = 0xCD
      · subst h3; decide
      · unfold Encoding.escByte escFixed
        rw [if_neg (show ¬((b : Nat) : Int) = BluefruitEncoding.Start by
              show ¬((b : Nat) : Int) = (0xAB : Int); omega)]
        rw [if_neg (show ¬((b : Nat) : Int) = BluefruitEncoding.End by
              show ¬((b : Nat) : Int) = (0xBC : Int); omega)]
        rw [if_neg (show ¬((b : Nat) : Int) = BluefruitEncoding.Esc by
              show ¬((b : Nat) : Int) = (0xCD : Int); omega)]
        rw [if_neg (show ¬b = Start by unfold Start; omega)]
        rw [if_neg (show ¬b = End by unfold End; omega)]
        rw [if_neg (show ¬b = Esc by unfold Esc; omega)]

theorem encodeBody_bluefruit (p : List Nat) :
    BluefruitEncoding.encodeBody p = encodeBytes p := by
  induction p with
  | nil => rfl
  | cons b rest ih => rw [encodeBody_cons, encodeBytes_cons, escByte_bluefruit, ih]

theorem encodeSpec_bluefruit (p : List Nat) :
    BluefruitEncoding.encodeSpec p = encodeSpecFixed p := by
  unfold Encoding.encodeSpec encodeSpecFixed Encoding.startPart
  rw [if_neg (by decide), encodeBody_bluefruit]
  rfl

theorem encode_not_frame_startstartend :
    ¬ ∃ p : List Nat, Encode p = some [Start, Start, End] := by
  rintro ⟨p, hp⟩
  rw [encode_fixed_eq] at hp
  simp only [Option.some.injEq] at hp
  unfold encodeSpecFixed at hp
  simp only [List.append_assoc, List.singleton_append, List.cons.injEq, true_and] at hp
  cases p with
  | nil => simp [encodeBytes, Start, End] at hp
  | cons b rest =>
    rw [encodeBytes_cons] at hp
    unfold escFixed at hp
    by_cases h1 : b = Start
    · rw [if_pos h1] at hp
      simp [Start, StartEsc, Esc, End] at hp
    · rw [if_neg h1] at hp
      by_cases h2 : b = End
      · rw [if_pos h2] at hp
        simp [Start, EndEsc, Esc, End] at hp
      · rw [if_neg h2] at hp
        by_cases h3 : b = Esc
        · rw [if_pos h3] at hp
          simp [Start, EscEsc, Esc, End] at hp
        · rw [if_neg h3] at hp
          rw [show (Start :: ([b] ++ encodeBytes rest)) ++ [End]
                = Start :: b :: (encodeBytes rest ++ [End]) by simp] at hp
          injection hp with h9 h10
          injection h10 with h11 h12
          exact h1 h11

/-- Claim C1: round-trip. For every payload (including the empty one) the
fixed codec satisfies Decode (Encode p) = ok p, and for every valid
configuration (active control bytes and escaped substitutes pairwise
distinct) SplitPackets applied to the configurable encoding of p, with
either value of atEOF, returns token p, advance equal to the encoded
length, and no error. -/
theorem c1_round_trip :
    (∀ p : List Nat, ∃ enc, Encode p = some enc ∧ Decode enc = .ok p) ∧
    (∀ e : Encoding, e.Valid → ∀ (p : List Nat) (atEOF : Bool),
      ∃ enc, e.Encode p = some enc ∧
        e.SplitPackets enc atEOF = some ⟨enc.length, some p, none⟩) := by
  constructor
  · intro p
    exact ⟨encodeSpecFixed p, encode_fixed_eq p, decode_roundtrip_fixed p⟩
  · intro e hv p atEOF
    refine ⟨e.encodeSpec p, encode_eq_spec e p, ?_⟩
    have h := splitPackets_encoded e hv p [] (Or.inl rfl) atEOF
    rw [show e.startPart ++ e.encodeBody p ++ ([] : List Nat) ++ [byteOf e.End]
          = e.encodeSpec p by unfold Encoding.encodeSpec; simp] at h
    rw [h]
    simp only [Option.some.injEq, SplitResult.mk.injEq, Encoding.encodeSpec,
      List.length_append, List.length_cons, List.length_nil]

/-- Witness for C1 at the standard no-start configuration and the payload
C0 01 DB (containing every control byte of that profile). -/
theorem c1_round_trip_witness :
    StdEncoding.Valid ∧
      (∃ enc, StdEncoding.Encode [0xC0, 0x01, 0xDB] = some enc ∧
        StdEncoding.SplitPackets enc true
          = some ⟨enc.length, some [0xC0, 0x01, 0xDB], none⟩) :=
  ⟨by decide, c1_round_trip.2 StdEncoding (by decide) [0xC0, 0x01, 0xDB] true⟩

/-- Claim C2: length. The configurable encoder output has length exactly
EncodedLen, EncodedLen is the payload length plus the frame overhead (2
with a start byte, 1 without) plus the control-byte count; the fixed
encoder output has length len + 2 + ReservedCharCount. -/
theorem c2_encoded_length :
    (∀ (e : Encoding) (src : List Nat), ∃ dst, e.Encode src = some dst ∧
        dst.length = e.EncodedLen src ∧
        e.EncodedLen src = src.length
          + (if e.Start = StartDisabled then 1 else 2) + e.controlCharCount src) ∧
    (∀ data : List Nat, ∃ enc, Encode data = some enc ∧
        enc.length = data.length + 2 + ReservedCharCount data) := by
  constructor
  · intro e src
    refine ⟨e.encodeSpec src, encode_eq_spec e src, encodeSpec_length e src, ?_⟩
    unfold Encoding.EncodedLen Encoding.minLength
    by_cases hS : e.Start = StartDisabled <;> simp [hS]
  · intro data
    refine ⟨encodeSpecFixed data, encode_fixed_eq data, ?_⟩
    unfold encodeSpecFixed
    simp only [List.length_append, List.length_cons, List.length_nil, encodeBytes_length]
    omega

/-- Claim C3: fixed-decoder error taxonomy. Decode fails exactly on the
five listed conditions, surfacing the matching specific error value, and
succeeds on every buffer satisfying none of them. The scanning conditions
on the interior are expressed by `interiorTruncated` and
`interiorInvalid`, the predicate projections of the interior scan. -/
theorem c3_decode_error_taxonomy (enc : List Nat) :
    (Decode enc = .error (.frameTooShort enc.length) ↔ enc.length < 2) ∧
    ((∃ b, Decode enc = .error (.missingStart b)) ↔
      2 ≤ enc.length ∧ enc.headD 0 ≠ Start) ∧
    ((∃ b, Decode enc = .error (.missingEnd b)) ↔
      2 ≤ enc.length ∧ enc.headD 0 = Start ∧ enc.getLastD 0 ≠ End) ∧
    (Decode enc = .error .truncatedEscape ↔
      2 ≤ enc.length ∧ enc.headD 0 = Start ∧ enc.getLastD 0 = End ∧
        interiorTruncated ((enc.drop 1).dropLast) = true) ∧
    ((∃ c, Decode enc = .error (.invalidEscapedChar c)) ↔
      2 ≤ enc.length ∧ enc.headD 0 = Start ∧ enc.getLastD 0 = End ∧
        (interiorInvalid ((enc.drop 1).dropLast)).isSome = true) ∧
    ((∃ d, Decode enc = .ok d) ↔
      2 ≤ enc.length ∧ enc.headD 0 = Start ∧ enc.getLastD 0 = End ∧
        interiorTruncated ((enc.drop 1).dropLast) = false ∧
        interiorInvalid ((enc.drop 1).dropLast) = none) := by
  obtain ⟨t1, t2, t3, t4, t5, t6⟩ := decodeLoop_classify ((enc.drop 1).dropLast)
  by_cases h1 : enc.length < 2
  · have hD : Decode enc = .error (.frameTooShort enc.length) := by
      unfold Decode; rw [if_pos h1]
    refine ⟨?_, ?_, ?_, ?_, ?_, ?_⟩
    · rw [hD]; simp [h1]
    · rw [hD]
      constructor
      · rintro ⟨b, hb⟩; simp at hb
      · rintro ⟨hlen, -⟩; omega
    · rw [hD]
      constructor
      · rintro ⟨b, hb⟩; simp at hb
      · rintro ⟨hlen, -⟩; omega
    · rw [hD]
      constructor
      · intro hx; simp at hx
      · rintro ⟨hlen, -⟩; omega
    · rw [hD]
      constructor
      · rintro ⟨c, hc⟩; simp at hc
      · rintro ⟨hlen, -⟩; omega
    · rw [hD]
      constructor
      · rintro ⟨d, hd2⟩; simp at hd2
      · rintro ⟨hlen, -⟩; omega
  · by_cases hh : enc.headD 0 = Start
    · by_cases hl : enc.getLastD 0 = End
      · have hD : Decode enc = decodeLoop ((enc.drop 1).dropLast) :=
          decode_framed enc (by omega) hh hl
        refine ⟨?_, ?_, ?_, ?_, ?_, ?_⟩
        · rw [hD]
          constructor
          · intro hx; exact absurd hx (t4 enc.length)
          · intro hx; omega
        · rw [hD]
          constructor
          · rintro ⟨b, hb⟩; exact absurd hb (t5 b)
          · rintro ⟨-, hne⟩; exact absurd hh hne
        · rw [hD]
          constructor
          · rintro ⟨b, hb⟩; exact absurd hb (t6 b)
          · rintro ⟨-, -, hne⟩; exact absurd hl hne
        · rw [hD, t1]
          constructor
          · intro hx; exact ⟨by omega, hh, hl, hx⟩
          · rintro ⟨-, -, -, hx⟩; exact hx
        · rw [hD]
          constructor
          · rintro ⟨c, hc⟩
            exact ⟨by omega, hh, hl, by rw [(t2 c).mp hc]; rfl⟩
          · rintro ⟨-, -, -, hs⟩
            obtain ⟨c, hc⟩ := Option.isSome_iff_exists.mp hs
            exact ⟨c, (t2 c).mpr hc⟩
        · rw [hD, t3]
          constructor
          · rintro ⟨ha, hb2⟩; exact ⟨by omega, hh, hl, ha, hb2⟩
          · rintro ⟨-, -, -, ha, hb2⟩; exact ⟨ha, hb2⟩
      · have hD : Decode enc = .error (.missingEnd (enc.headD 0)) := by
          unfold Decode
          rw [if_neg h1]
          rw [if_neg (show ¬(enc.headD 0 ≠ Start) by simp only [ne_eq, not_not]; exact hh)]
          rw [if_pos hl]
        refine ⟨?_, ?_, ?_, ?_, ?_, ?_⟩
        · rw [hD]
          constructor
          · intro hx; simp at hx
          · intro hx; omega
        · rw [hD]
          constructor
          · rintro ⟨b, hb⟩; simp at hb
          · rintro ⟨-, hne⟩; exact absurd hh hne
        · rw [hD]
          constructor
          · intro _; exact ⟨by omega, hh, hl⟩
          · intro _; exact ⟨enc.headD 0, rfl⟩
        · rw [hD]
          constructor
          · intro hx; simp at hx
          · rintro ⟨-, -, hle, -⟩; exact absurd hle hl
        · rw [hD]
          constructor
          · rintro ⟨c, hc⟩; simp at hc
          · rintro ⟨-, -, hle, -⟩; exact absurd hle hl
        · rw [hD]
          constructor
          · rintro ⟨d, hd2⟩; simp at hd2
          · rintro ⟨-, -, hle, -⟩; exact absurd hle hl
    · have hD : Decode enc = .error (.missingStart (enc.headD 0)) := by
        unfold Decode
        rw [if_neg h1]
        rw [if_pos hh]
      refine ⟨?_, ?_, ?_, ?_, ?_, ?_⟩
      · rw [hD]
        constructor
        · intro hx; simp at hx
        · intro hx; omega
      · rw [hD]
        constructor
        · intro _; exact ⟨by omega, hh⟩
        · intro _; exact ⟨enc.headD 0, rfl⟩
      · rw [hD]
        constructor
        · rintro ⟨b, hb⟩; simp at hb
        · rintro ⟨-, hhe, -⟩; exact absurd hhe hh
      · rw [hD]
        constructor
        · intro hx; simp at hx
        · rintro ⟨-, hhe, -⟩; exact absurd hhe hh
      · rw [hD]
        constructor
        · rintro ⟨c, hc⟩; simp at hc
        · rintro ⟨-, hhe, -⟩; exact absurd hhe hh
      · rw [hD]
        constructor
        · rintro ⟨d, hd2⟩; simp at hd2
        · rintro ⟨-, hhe, -⟩; exact absurd hhe hh

/-- Claim C4: stream-splitter dichotomy with no end byte in the buffer.
With atEOF false nothing is consumed and no token or error is returned;
with atEOF true the whole buffer is consumed, the unterminated bytes are
the token, and the end-of-source condition io.EOF (distinct from a decode
error) is surfaced. -/
theorem c4_no_end_dichotomy (e : Encoding) (data : List Nat)
    (h : ∀ b ∈ data, (b : Int) ≠ e.End) :
    e.SplitPackets data false = some ⟨0, none, none⟩ ∧
    e.SplitPackets data true = some ⟨data.length, some data, some .eof⟩ := by
  have hfp := firstPass_noEnd e data h
  constructor
  · unfold Encoding.SplitPackets
    rw [hfp]
    simp only []
    rw [if_neg (by simp)]
  · unfold Encoding.SplitPackets
    rw [hfp]
    simp only []
    simp

/-- Witness for C4 at the standard configuration and buffer 01 02 03. -/
theorem c4_no_end_dichotomy_witness :
    StdEncoding.SplitPackets [1, 2, 3] false = some ⟨0, none, none⟩ ∧
    StdEncoding.SplitPackets [1, 2, 3] true = some ⟨3, some [1, 2, 3], some .eof⟩ :=
  c4_no_end_dichotomy StdEncoding [1, 2, 3] (by decide)

/-- Claim C5: the streaming vector of the repository test. Splitting
01 02 03 C0 04 DB DC C0 DB DD 05 C0 with the standard no-start profile
yields packets 01 02 03, then 04 C0, then DB 05, each consuming 4 bytes
(12 in total, the whole input) with no error. -/
theorem c5_streaming_vector :
    StdEncoding.SplitPackets
        [0x01, 0x02, 0x03, 0xC0, 0x04, 0xDB, 0xDC, 0xC0, 0xDB, 0xDD, 0x05, 0xC0] false
      = some ⟨4, some [0x01, 0x02, 0x03], none⟩ ∧
    StdEncoding.SplitPackets
        (List.drop 4
          [0x01, 0x02, 0x03, 0xC0, 0x04, 0xDB, 0xDC, 0xC0, 0xDB, 0xDD, 0x05, 0xC0]) false
      = some ⟨4, some [0x04, 0xC0], none⟩ ∧
    StdEncoding.SplitPackets
        (List.drop 8
          [0x01, 0x02, 0x03, 0xC0, 0x04, 0xDB, 0xDC, 0xC0, 0xDB, 0xDD, 0x05, 0xC0]) false
      = some ⟨4, some [0xDB, 0x05], none⟩ ∧
    4 + 4 + 4 = List.length
        [0x01, 0x02, 0x03, 0xC0, 0x04, 0xDB, 0xDC, 0xC0, 0xDB, 0xDD, 0x05, 0xC0] := by
  refine ⟨by decide, by decide, by decide, by decide⟩

/-- Counterexample for C6: the span before the first end byte ends in a
dangling escape byte (standard profile, buffer DB C0), yet SplitPackets
returns a decoded (empty) packet consuming both bytes with NO error,
instead of reporting one as the claim requires. -/
theorem c6_counterexample :
    StdEncoding.SplitPackets [0xDB, 0xC0] true = some ⟨2, some [], none⟩ := by
  decide

/-- Amended C6: SplitPackets decodes complete escape pairs in the span
under the same rules as the whole-buffer decoder, but an escape byte
immediately preceding the located end byte (no follower in the span) is
silently dropped: the span still decodes to the payload and no error is
reported. -/
theorem c6_amended (e : Encoding) (hv : e.Valid) (p : List Nat) (atEOF : Bool) :
    ∃ enc, e.Encode p = some enc ∧
      e.SplitPackets (enc.dropLast ++ [byteOf e.Esc, byteOf e.End]) atEOF
        = some ⟨enc.length + 1, some p, none⟩ := by
  refine ⟨e.encodeSpec p, encode_eq_spec e p, ?_⟩
  have hdrop : (e.encodeSpec p).dropLast = e.startPart ++ e.encodeBody p := by
    unfold Encoding.encodeSpec
    simp
  rw [hdrop]
  have h := splitPackets_encoded e hv p [byteOf e.Esc] (Or.inr rfl) atEOF
  rw [show e.startPart ++ e.encodeBody p ++ [byteOf e.Esc] ++ [byteOf e.End]
        = (e.startPart ++ e.encodeBody p) ++ [byteOf e.Esc, byteOf e.End] by simp] at h
  rw [h]
  simp only [Option.some.injEq, SplitResult.mk.injEq, Encoding.encodeSpec,
    List.length_append, List.length_cons, List.length_nil]

/-- Witness for the amended C6 at the standard configuration, payload 01. -/
theorem c6_amended_witness :
    StdEncoding.Valid ∧
      (∃ enc, StdEncoding.Encode [1] = some enc ∧
        StdEncoding.SplitPackets
            (enc.dropLast ++ [byteOf StdEncoding.Esc, byteOf StdEncoding.End]) false
          = some ⟨enc.length + 1, some [1], none⟩) :=
  ⟨by decide, c6_amended StdEncoding (by decide) [1] false⟩

/-- Counterexample for C7: alternate profile, buffer AB CD 01 BC. The
invalid escaped byte 01 sits at span-relative position 1 (the span starts
after the leading start byte), but SplitPackets reports
InvalidControlCharError with index 2, its absolute position in the
buffer — not the span-relative 1. -/
theorem c7_counterexample :
    BluefruitEncoding.SplitPackets [0xAB, 0xCD, 0x01, 0xBC] false
        = some ⟨4, some [0], some (.invalidControlChar 2 0x01)⟩ ∧ (2 : Nat) ≠ 1 := by
  refine ⟨by decide, by decide⟩

/-- Amended C7: whenever SplitPackets fails with
InvalidControlCharError{index, byte}, byte is the offending byte value
and index is its absolute position in the data buffer passed to
SplitPackets (span offset included), not a span-relative position. -/
theorem c7_amended (e : Encoding) (data : List Nat) (atEOF : Bool) (res : SplitResult)
    (idx c : Nat) (h1 : e.SplitPackets data atEOF = some res)
    (h2 : res.err = some (.invalidControlChar idx c)) :
    data.get? idx = some c ∧ e.isValidControlEscChar c = false :=
  splitPackets_err_abs e data atEOF res idx c h1 h2

/-- Witness for the amended C7 at the counterexample input. -/
theorem c7_amended_witness :
    ([0xAB, 0xCD, 0x01, 0xBC] : List Nat).get? 2 = some 0x01 ∧
      BluefruitEncoding.isValidControlEscChar 0x01 = false :=
  c7_amended BluefruitEncoding [0xAB, 0xCD, 0x01, 0xBC] false
    ⟨4, some [0], some (.invalidControlChar 2 0x01)⟩ 2 0x01 (by decide) (by decide)

/-- Claim C8: the fixed-codec encoder is byte-for-byte the configurable
encoder instantiated at the Bluefruit (alternate) profile. -/
theorem c8_fixed_bluefruit_equiv (p : List Nat) :
    Encode p = BluefruitEncoding.Encode p := by
  rw [encode_fixed_eq, encode_eq_spec, encodeSpec_bluefruit]

/-- Claim C9: both encoders are total; every configuration and payload
produces exactly the functional frame (so no write was out of bounds, the
loop guard never truncated the input), and the end byte lands on the last
cell. -/
theorem c9_encode_total :
    (∀ (e : Encoding) (src : List Nat),
        e.Encode src = some (e.encodeSpec src) ∧
        (e.encodeSpec src).getLast? = some (byteOf e.End)) ∧
    (∀ data : List Nat,
        Encode data = some (encodeSpecFixed data) ∧
        (encodeSpecFixed data).getLast? = some End) := by
  constructor
  · intro e src
    refine ⟨encode_eq_spec e src, ?_⟩
    unfold Encoding.encodeSpec
    simp
  · intro data
    refine ⟨encode_fixed_eq data, ?_⟩
    unfold encodeSpecFixed
    exact List.getLast?_concat _

/-- Claim C10: decoder leniency. A well-framed buffer whose interior is
free of the escape byte decodes to its interior verbatim — raw unescaped
Start or End bytes included; in particular AB AB BC decodes to AB, yet no
payload encodes to AB AB BC, so Decode accepts frames Encode never
produces. -/
theorem c10_decoder_leniency :
    (∀ enc : List Nat, 2 ≤ enc.length → enc.headD 0 = Start → enc.getLastD 0 = End →
        (∀ b ∈ (enc.drop 1).dropLast, b ≠ Esc) →
        Decode enc = .ok ((enc.drop 1).dropLast)) ∧
    Decode [Start, Start, End] = .ok [Start] ∧
    ¬ ∃ p : List Nat, Encode p = some [Start, Start, End] := by
  refine ⟨?_, ?_, encode_not_frame_startstartend⟩
  · intro enc h2 hh hl hesc
    rw [decode_framed enc h2 hh hl, decodeLoop_noEsc _ hesc]
  · rfl

/-- Witness for C10: the framed buffer AB BC AB BC (raw End and Start
inside) decodes verbatim. -/
theorem c10_decoder_leniency_witness :
    Decode [0xAB, 0xBC, 0xAB, 0xBC] = .ok [0xBC, 0xAB] :=
  c10_decoder_leniency.1 [0xAB, 0xBC, 0xAB, 0xBC] (by decide) (by decide) (by decide)
    (by decide)

end Slip
